import Mathlib

/-!
Verification development for the aCOSMIC sampling engine (`aCOSMIC/sample.py`).

The Python source is embedded shallowly:

* floating point arithmetic is idealised as exact arithmetic in a linear
  ordered field (`ℚ` where everything in sight is rational, `ℝ` where the
  source uses transcendental functions such as `log10`, `exp` and real
  powers);
* `numpy` array programs are embedded as `List` programs;
* random draws (`np.random.rand`, `np.random.uniform`, ...) are passed in
  explicitly as function arguments;
* `np.interp` is embedded as `np_interp` below, including its clamping
  behaviour at both ends and its choice of the rightmost matching knot.

Several statements of the literal source are not executable Python (the file
references the undefined names `num1M1`, `logPv`, `scipy`, `numpy`, `xrange`,
calls grid vectors `M1v`/`qv`/`ev` that are local to another function, never
initialises `total_mass`, and has a malformed indentation block around
`mybinfrac`).  Where such a slip has an unambiguous evident reading (a typo
for an adjacent name, a missing `()` on `.flatten`, a missing
`total_mass = 0`), the embedding follows that evident reading; every such
repair is noted in a comment at the definition concerned.
-/

namespace Cosmic

/-! ## Generic list/interpolation helpers -/

/-- Monotone (non-decreasing) list, stated over `getD` indices. -/
def SortedLe {α : Type*} [LinearOrderedField α] (l : List α) : Prop :=
  ∀ i j, i ≤ j → j < l.length → l.getD i 0 ≤ l.getD j 0

/-- Embedding of `np.max` on a (nonempty) one dimensional array:
fold of `max` over the list, seeded with the first element. -/
def npMax {α : Type*} [LinearOrderedField α] (l : List α) : α :=
  l.foldl max (l.headD 0)

/-- Embedding of `np.interp(x, xp, fp)` for equal-length `xp`, `fp` with
`xp` non-decreasing: clamp to `fp[0]` below `xp[0]` and to `fp[-1]` at or
above `xp[-1]`; otherwise interpolate linearly on the interval starting at
the rightmost knot `j` with `xp[j] <= x`. -/
def np_interp {α : Type*} [LinearOrderedField α] (x : α) (xp fp : List α) : α :=
  if xp.length = 0 then 0
  else if x < xp.getD 0 0 then fp.getD 0 0
  else if xp.getD (xp.length - 1) 0 ≤ x then fp.getD (fp.length - 1) 0
  else
    let j := Nat.findGreatest (fun j => xp.getD j 0 ≤ x) (xp.length - 2)
    fp.getD j 0 +
      (fp.getD (j + 1) 0 - fp.getD j 0) * (x - xp.getD j 0) /
        (xp.getD (j + 1) 0 - xp.getD j 0)

/-- Partial sums offset by the first element: the embedding of
`np.cumsum(f) - f[0]` (source lines 459, 506, 550). -/
def cumsum0 {α : Type*} [LinearOrderedField α] (f : List α) : List α :=
  (List.range f.length).map fun j => ((f.take (j + 1)).sum - f.headD 0)

/-- Embedding of the normalisation step `cum = np.cumsum(f) - f[0];
cum = cum / np.max(cum)` (source lines 459-460 and 506-507).  In floating
point a zero maximum makes the division produce invalid values (`0/0 = nan`);
the embedding returns `none` in that case and the normalised list otherwise.
There is no guard in the source: the division is performed unconditionally. -/
def cumNormalize {α : Type*} [LinearOrderedField α] (f : List α) : Option (List α) :=
  let c := cumsum0 f
  if npMax c = 0 then none else some (c.map (· / npMax c))

/-- Embedding of the period-table step (source lines 550-555): cumulate,
normalise by the maximum, then rescale so the maximum equals `I`, the
quadrature value `idl_tabulate(logPv, flogP_sq[:,i]*probbin[:,i])` (the
total binary fraction for the mass column). -/
def pbinNormalize {α : Type*} [LinearOrderedField α] (f : List α) (I : α) :
    Option (List α) :=
  (cumNormalize f).map (List.map (· * I))

/-! ## The quadrature primitive `idl_tabulate`

The source's nested `newton_cotes` calls `scipy.integrate.newton_cotes(rn)`,
which returns the interpolatory quadrature weights for the node vector `rn`
over `[0, len(rn)-1]` (the unique weights making the rule exact on
polynomials of degree below the node count).  That external library call is
modelled by its defining property: weight `i` is the integral over
`[0, n-1]` of the `i`-th Lagrange basis polynomial of the nodes. -/

/-- Integral over `[0, b]` of a rational polynomial, coefficientwise:
`∑ c_n x^n` integrates to `∑ c_n b^(n+1)/(n+1)`. -/
noncomputable def polyIntegral (b : ℚ) (P : Polynomial ℚ) : ℚ :=
  P.sum fun n c => c * b ^ (n + 1) / (n + 1)

/-- Model of `scipy.integrate.newton_cotes(rn)[0]`: the interpolatory
quadrature weights of the nodes `rn` over `[0, rn.length - 1]`. -/
noncomputable def ncWeights (rn : List ℚ) : List ℚ :=
  List.ofFn fun i : Fin rn.length =>
    polyIntegral ((rn.length : ℚ) - 1)
      (Lagrange.basis Finset.univ (fun j : Fin rn.length => rn.getD j 0) i)

/-- Embedding of the nested `newton_cotes(x, f)` of `idl_tabulate`:
return `0` for fewer than two abscissas, otherwise rescale the nodes to
`rn = (n-1)*(x - x[0])/(x[-1] - x[0])`, fetch the Newton-Cotes weights,
and return `(x[-1] - x[0])/(n-1) * dot(weights, f)`. -/
noncomputable def newton_cotes (x f : List ℚ) : ℚ :=
  if x.length < 2 then 0
  else
    let n := x.length
    let x0 := x.getD 0 0
    let xl := x.getD (n - 1) 0
    let rn := x.map fun t => ((n : ℚ) - 1) * (t - x0) / (xl - x0)
    (xl - x0) / ((n : ℚ) - 1) * (List.zipWith (· * ·) (ncWeights rn) f).sum

/-- Embedding of `idl_tabulate(x, f, p=5)`: the window loop
`for idx in xrange(0, x.shape[0], p - 1)` with the default `p = 5` becomes
structural recursion consuming `p - 1 = 4` abscissas per step, summing the
nested Newton-Cotes value of each 5-point window `x[idx:idx+5]`. -/
noncomputable def idl_tabulate (x f : List ℚ) : ℚ :=
  if h : x = [] then 0
  else newton_cotes (x.take 5) (f.take 5) + idl_tabulate (x.drop 4) (f.drop 4)
termination_by x.length
decreasing_by
  simp only [List.length_drop]
  have hx : x.length ≠ 0 := fun h0 => h (List.length_eq_zero.mp h0)
  omega

/-! ## The independent-axis sampler family (class `Sample`) -/

/-- Physical constants from the module header of `sample.py`
(only the ones used by embedded functions). -/
noncomputable def G : ℝ := 6.67384 * (10 : ℝ) ^ (-(11 : ℤ))

/-- Constant `Rsun = 6.955*10**8` (metres). -/
noncomputable def Rsun : ℝ := 6.955 * (10 : ℝ) ^ (8 : ℕ)

/-- Constant `Msun = 1.9891*10**30` (kilograms). -/
noncomputable def Msun : ℝ := 1.9891 * (10 : ℝ) ^ (30 : ℕ)

/-- Constant `sec_in_day = 86400.0`. -/
noncomputable def sec_in_day : ℝ := 86400

/-- Embedding of `Sample.sample_secondary`: a mass-ratio draw
`a_0 = np.random.uniform(0.001, 1, primary_mass.size)` is supplied as the
list `u`; the result is the elementwise product `primary_mass * a_0`. -/
noncomputable def sample_secondary (primary_mass u : List ℝ) : List ℝ :=
  List.zipWith (· * ·) primary_mass u

/-- The van Haaften binary fraction `1/2.0 + 1/4.0 * np.log10(primary_mass)`
from `Sample.binary_select`. -/
noncomputable def binary_fraction (m : ℝ) : ℝ :=
  1 / 2 + 1 / 4 * Real.logb 10 m

/-- Embedding of `Sample.binary_select` (model `'vanHaaften'`): given the
primary masses and the uniform draws `binary_choose`, return the subsequence
with `binary_fraction > draw` (binaries) and the subsequence with
`binary_fraction < draw` (singles).  Note both comparisons are strict in the
source, so a mass whose draw equals its fraction lands in neither output. -/
noncomputable def binary_select (primary_mass u : List ℝ) : List ℝ × List ℝ :=
  ((primary_mass.zip u).filterMap fun p =>
      if binary_fraction p.1 > p.2 then some p.1 else none,
    (primary_mass.zip u).filterMap fun p =>
      if binary_fraction p.1 < p.2 then some p.1 else none)

/-- Embedding of `Sample.sample_porb`.  The uniform (resp. log-normal) draws
are supplied as `u`.  For `'Han'` the draw list is transformed through the
broken power law, converted to metres with `Rsun`, then to an orbital period
in seconds by Kepler's third law; for `'log_normal'` the draws are periods in
days and are converted to seconds.  Any other selector falls off the end of
the function: Python returns `None`, embedded as `none`. -/
noncomputable def sample_porb (model : String) (mass1 mass2 : ℝ) (u : List ℝ) :
    Option (List ℝ) :=
  if model = "Han" then
    some (u.map fun a₀ =>
      let a₁ := if a₀ ≤ 0.0583333 then (a₀ / 0.00368058) ^ ((5 : ℝ) / 6)
        else Real.exp (a₀ / 0.07 + Real.log 10)
      let a₂ := a₁ * Rsun
      (4 * Real.pi ^ 2 / (G * (mass1 + mass2) * Msun) * a₂ ^ (3 : ℝ)) ^ ((1 : ℝ) / 2))
  else if model = "log_normal" then
    some (u.map fun porb => porb * sec_in_day)
  else none

/-- Embedding of `Sample.sample_ecc`: `'thermal'` maps uniform draws through
`a_0**0.5`; `'uniform'` returns the draws; any other selector silently
returns `None` (`none`). -/
noncomputable def sample_ecc (model : String) (u : List ℝ) : Option (List ℝ) :=
  if model = "thermal" then some (u.map fun a₀ => a₀ ^ ((1 : ℝ) / 2))
  else if model = "uniform" then some u
  else none

/-- Embedding of `Sample.sample_SFH`: the underlying uniform draws on `[0,1)`
are supplied as `u`; `'const'` returns `uniform(0, 10000)` draws, `'burst'`
returns `10000 - uniform(0, 1000)` draws; any other selector silently
returns `None` (`none`). -/
noncomputable def sample_SFH (model : String) (u : List ℝ) : Option (List ℝ) :=
  if model = "const" then some (u.map fun a₀ => a₀ * 10000)
  else if model = "burst" then some (u.map fun a₀ => 10000 - a₀ * 1000)
  else none

/-! ## The multi-dimensional sampler (class `MultiDimSample`)

`populate_pdfs` is not executable as written: its first grid statement
`np.logspace(..., num1M1)` references the undefined name `num1M1` (the
defined name is `numM1`), the period loop references the undefined `logPv`
(the defined name is `logP`), and `idl_tabulate`/`scipy` are unresolvable in
its scope, so no CDF tensor is ever built.  `initial_sample` in turn
references the grid vectors `M1v`, `logPv`, `qv`, `ev` and the tensors, which
are local to `populate_pdfs`.  The Monte-Carlo loop of `initial_sample` is
therefore embedded as a function of the three tabulated tensors (a `Grids`
value standing for the triple `cumqdist, cumedist, cumPbindist` that
`populate_pdfs` was intended to return), with the intended grid vectors
reconstructed below from their defining `linspace`/`logspace` calls. -/

/-- Grid `qv = np.linspace(0.1, 1.0, 91)`: mass-ratio grid, exact rationals
(step `0.9/90 = 0.01`), stated polymorphically so that it can be evaluated
both in `ℚ` and in `ℝ`. -/
def qvL {α : Type*} [LinearOrderedField α] : List α :=
  List.ofFn fun k : Fin 91 => 1 / 10 + (k.1 : α) / 100

/-- Grid `logP = np.linspace(0.15, 8.0, 158)` as a function of the index
(step `7.85/157 = 0.05`). -/
noncomputable def logPvf (j : ℕ) : ℝ := 0.15 + 0.05 * j

/-- The log-period grid as a list. -/
noncomputable def logPvList : List ℝ := List.ofFn fun j : Fin 158 => logPvf j

/-- Grid `ev = np.linspace(0.0, 0.99, 100) + 0.0001`: eccentricity grid
(step `0.99/99 = 0.01`). -/
noncomputable def evList : List ℝ := List.ofFn fun k : Fin 100 => (k.1 : ℝ) / 100 + 1 / 10000

/-- Grid `M1v = np.logspace(np.log10(0.8), np.log10(40), 101)`: the primary-mass
grid of the tabulated distributions. -/
noncomputable def M1v (i : ℕ) : ℝ :=
  (10 : ℝ) ^ (Real.logb 10 0.8 + (i : ℝ) * (Real.logb 10 40 - Real.logb 10 0.8) / 100)

/-- Vector `M1 = np.linspace(0, 150, 150000) + 0.08`: the fine primary-mass vector
of `initial_sample`, as a function of the index. -/
noncomputable def M1f (i : ℕ) : ℝ := 150 * i / 149999 + 0.08

/-- The fine primary-mass vector as a list. -/
noncomputable def M1list : List ℝ := List.ofFn fun i : Fin 150000 => M1f i

/-- The piecewise primary-mass density of `initial_sample` (lines 585-591):
slope `-2.3` above `1.0`, `-1.6` on `(0.5, 1.0]`, and `-0.8` (rescaled by
`0.5**(1.6-0.8)`) at or below `0.5` solar masses.  The source applies the
masks in the order `-2.3`, then `M1 <= 1.0`, then `M1 <= 0.5`, which is the
if-chain below. -/
noncomputable def fM1 (i : ℕ) : ℝ :=
  if M1f i ≤ 0.5 then M1f i ^ (-(0.8 : ℝ)) / (0.5 : ℝ) ^ ((1.6 : ℝ) - 0.8)
  else if M1f i ≤ 1 then M1f i ^ (-(1.6 : ℝ))
  else M1f i ^ (-(2.3 : ℝ))

/-- The density values as a list. -/
noncomputable def fM1list : List ℝ := List.ofFn fun i : Fin 150000 => fM1 i

/-- Cumulation `cumfM1 = np.cumsum(fM1) - fM1[0]` (line 593). -/
noncomputable def cumfM1raw : List ℝ := cumsum0 fM1list

/-- Normalisation `cumfM1 = cumfM1 / np.max(cumfM1)` (line 594). -/
noncomputable def cumfM1list : List ℝ := cumfM1raw.map (· / npMax cumfM1raw)

/-- The three CDF tensors that `populate_pdfs` was intended to return,
indexed as in the source: `cumqdist[q-index, logP-index, M1-index]`,
`cumedist[e-index, logP-index, M1-index]`, `cumPbindist[logP-index,
M1-index]`. -/
structure Grids where
  cumqdist : ℕ → ℕ → ℕ → ℝ
  cumedist : ℕ → ℕ → ℕ → ℝ
  cumPbindist : ℕ → ℕ → ℝ

/-- First index attaining the minimum of `g` on `{0, ..., n-1}`: the
embedding of `np.where(abs(v - grid) == min(abs(v - grid)))[0]` followed by
use of the (generically unique) first match. -/
def firstArgmin {α : Type*} [LinearOrderedField α] (g : ℕ → α) (n : ℕ) : ℕ :=
  (List.range n).foldl (fun acc j => if g j < g acc then j else acc) 0

/-- Embedding of the mass-ratio selection step of `initial_sample`
(lines 642-655), operating on the 91-point slice `dist =
cumqdist[:, indlogP, indM1]`.  For `myM1 < 0.8` the cumulative value
`cum_qmin` at `q_min = 0.08/myM1` is subtracted, the result is renormalised
by its maximum, entries at grid points `qv <= q_min` are zeroed, and the
mass ratio is drawn by inverse interpolation; otherwise the slice is used
directly. -/
def qTruncDist {α : Type*} [LinearOrderedField α] (qmin : α) (dist : List α) : List α :=
  let c := np_interp qmin qvL dist
  let d1 := dist.map (· - c)
  let d2 := d1.map (· / npMax d1)
  (List.range 91).map fun k =>
    if (qvL (α := α)).getD k 0 ≤ qmin then 0 else d2.getD k 0

/-- The inverse-interpolation draw of the mass ratio: truncated distribution
for `myM1 < 0.8`, the raw slice otherwise. -/
def qSelect {α : Type*} [LinearOrderedField α] (myM1 : α) (dist : List α) (u : α) : α :=
  if myM1 < 0.8 then np_interp u (qTruncDist (0.08 / myM1) dist) qvL
  else np_interp u dist qvL

/-- The four uniform `[0,1)` draws consumed by one trial of the Monte-Carlo
loop: the primary-mass draw, `myrand` (used both for the binary decision and
for the period selection), the eccentricity draw and the mass-ratio draw. -/
structure TrialRand where
  uM1 : ℝ
  myrand : ℝ
  ue : ℝ
  uq : ℝ

/-- One iteration of the loop of `initial_sample` (lines 600-666): select
`myM1` from the fine-grid CDF restricted above `M1min` (via `cumf`), find
the nearest tabulated mass index, rescale the period column by the
log-linear binary-fraction factor when `myM1 <= 0.8`, and either produce a
binary (period, eccentricity, mass ratio) or a single.  Evident repairs of
source slips: `.flatten` is read as the call `.flatten()`, and the
13-space-indented `mybinfrac` block is read at loop-body level. -/
noncomputable def trialEval (g : Grids) (cumf : ℝ) (t : TrialRand) :
    ℝ × Option (ℝ × ℝ × ℝ) :=
  let myM1 := np_interp (cumf + (1 - cumf) * t.uM1) cumfM1list M1list
  let indM1 := firstArgmin (fun i => |myM1 - M1v i|) 101
  let colP : List ℝ :=
    if myM1 ≤ 0.8 then
      List.ofFn fun j : Fin 158 =>
        g.cumPbindist j.1 indM1 *
          np_interp (Real.logb 10 myM1) [Real.logb 10 0.08, Real.logb 10 0.8] [0, 1]
    else List.ofFn fun j : Fin 158 => g.cumPbindist j.1 indM1
  let mybinfrac := npMax colP
  (myM1,
    if t.myrand < mybinfrac then
      let mylogP := np_interp t.myrand colP logPvList
      let indlogP := firstArgmin (fun j => |mylogP - logPvf j|) 158
      let mye := np_interp t.ue
        (List.ofFn fun k : Fin 100 => g.cumedist k.1 indlogP indM1) evList
      let myq := qSelect myM1
        (List.ofFn fun k : Fin 91 => g.cumqdist k.1 indlogP indM1) t.uq
      some (myq, mylogP, mye)
    else none)

/-- The accumulated output of `initial_sample`: the four appended lists and
the running `total_mass`. -/
structure SampleOut where
  primaries : List ℝ
  secondaries : List ℝ
  porbs : List ℝ
  eccs : List ℝ
  total : ℝ

/-- The Monte-Carlo loop of `initial_sample` over a list of per-trial draw
records.  For a binary trial the source appends `myM1`, `myq*myM1`, the
period in seconds and `mye`, and adds primary plus secondary mass to
`total_mass`; for a single it only adds `myM1`.  Evident repairs of source
slips: `total_mass` starts at `0` (the source never initialises it), and the
period append `10**logP * sec_in_day` — whose `logP` is unbound in
`initial_sample` — is read as `10**mylogP * sec_in_day`, the selected
log-period, per the surrounding comments. -/
noncomputable def initial_sample_loop (g : Grids) (cumf : ℝ) :
    List TrialRand → SampleOut
  | [] => ⟨[], [], [], [], 0⟩
  | t :: ts =>
    let r := initial_sample_loop g cumf ts
    match trialEval g cumf t with
    | (m1, some (q, lp, e)) =>
      ⟨m1 :: r.primaries, q * m1 :: r.secondaries,
        (10 : ℝ) ^ lp * sec_in_day :: r.porbs, e :: r.eccs,
        r.total + (m1 + q * m1)⟩
    | (m1, none) => ⟨r.primaries, r.secondaries, r.porbs, r.eccs, r.total + m1⟩

/-- Embedding of `MultiDimSample.initial_sample(M1min, size)`: the value of
the primary-mass CDF at `M1min` is computed by `np.interp(M1min, M1,
cumfM1)` (line 598) — note there is no validation of `M1min` anywhere — and
the loop is run once per requested trial. -/
noncomputable def initial_sample (M1min : ℝ) (g : Grids) (ts : List TrialRand) :
    SampleOut :=
  initial_sample_loop g (np_interp M1min M1list cumfM1list) ts

/-- All-zero grid tensors (used to exercise the loop on concrete input). -/
noncomputable def zeroGrids : Grids :=
  ⟨fun _ _ _ => 0, fun _ _ _ => 0, fun _ _ => 0⟩

/-! ## Theorems: interpolation library -/

theorem getD_ofFn {α : Type*} {n : ℕ} (f : Fin n → α) (i : ℕ) (d : α) (h : i < n) :
    (List.ofFn f).getD i d = f ⟨i, h⟩ := by
  rw [List.getD_eq_getElem _ _ (by simpa using h)]
  simp

theorem sortedLe_ofFn {α : Type*} [LinearOrderedField α] {n : ℕ} (f : ℕ → α)
    (hf : ∀ i j, i ≤ j → j < n → f i ≤ f j) :
    SortedLe (List.ofFn fun i : Fin n => f i.1) := by
  intro i j hij hj
  rw [List.length_ofFn] at hj
  rw [getD_ofFn _ _ _ (lt_of_le_of_lt hij hj), getD_ofFn _ _ _ hj]
  exact hf i j hij hj

/-- Complete case analysis of `np_interp`: either `x` clamps at the left
edge, or at the right edge, or it falls in the interval starting at the
rightmost knot `j` with `xp[j] ≤ x`. -/
theorem np_interp_cases {α : Type*} [LinearOrderedField α] (x : α) (xp fp : List α)
    (hn : xp.length ≠ 0) :
    (x < xp.getD 0 0 ∧ np_interp x xp fp = fp.getD 0 0) ∨
    (xp.getD (xp.length - 1) 0 ≤ x ∧
      np_interp x xp fp = fp.getD (fp.length - 1) 0) ∨
    (∃ j, 2 ≤ xp.length ∧ j ≤ xp.length - 2 ∧ ¬xp.getD (xp.length - 1) 0 ≤ x ∧
      xp.getD j 0 ≤ x ∧ x < xp.getD (j + 1) 0 ∧
      (∀ k, k ≤ xp.length - 2 → xp.getD k 0 ≤ x → k ≤ j) ∧
      np_interp x xp fp =
        fp.getD j 0 + (fp.getD (j + 1) 0 - fp.getD j 0) * (x - xp.getD j 0) /
          (xp.getD (j + 1) 0 - xp.getD j 0)) := by
  by_cases h1 : x < xp.getD 0 0
  · left
    exact ⟨h1, by unfold np_interp; rw [if_neg hn, if_pos h1]⟩
  · by_cases h2 : xp.getD (xp.length - 1) 0 ≤ x
    · right; left
      exact ⟨h2, by unfold np_interp; rw [if_neg hn, if_neg h1, if_pos h2]⟩
    · right; right
      have hn2 : 2 ≤ xp.length := by
        rcases Nat.lt_or_ge xp.length 2 with h | h
        · exfalso
          have h1' : xp.length = 1 := by omega
          exact absurd (not_lt.mp h1) (by rw [h1'] at h2; simpa using h2)
        · exact h
      refine ⟨Nat.findGreatest (fun j => xp.getD j 0 ≤ x) (xp.length - 2), hn2,
        Nat.findGreatest_le _, h2,
        Nat.findGreatest_spec (P := fun j => xp.getD j 0 ≤ x) (Nat.zero_le _)
          (not_lt.mp h1), ?_,
        fun k hk hxk => Nat.le_findGreatest hk hxk,
        by unfold np_interp; rw [if_neg hn, if_neg h1, if_neg h2]⟩
      set j := Nat.findGreatest (fun j => xp.getD j 0 ≤ x) (xp.length - 2) with hj
      rcases Nat.lt_or_ge j (xp.length - 2) with hlt | hge
      · have := Nat.findGreatest_is_greatest (P := fun j => xp.getD j 0 ≤ x)
          (n := xp.length - 2) (k := j + 1) (by omega) (by omega)
        exact not_le.mp this
      · have hje : j = xp.length - 2 := le_antisymm (Nat.findGreatest_le _) hge
        have h21 : j + 1 = xp.length - 1 := by omega
        rw [h21]
        exact not_le.mp h2

/-- For non-decreasing values, interpolation never goes below the first
value. -/
theorem np_interp_ge_head {α : Type*} [LinearOrderedField α] (x : α) (xp fp : List α)
    (hn : xp.length ≠ 0) (hlen : fp.length = xp.length) (hfp : SortedLe fp) :
    fp.getD 0 0 ≤ np_interp x xp fp := by
  rcases np_interp_cases x xp fp hn with ⟨_, he⟩ | ⟨_, he⟩ |
    ⟨j, hn2, hj, _, hxj, hxj1, _, he⟩
  · rw [he]
  · rw [he]
    exact hfp 0 (fp.length - 1) (Nat.zero_le _) (by omega)
  · rw [he]
    have hj1 : j + 1 < fp.length := by omega
    have hd : 0 < xp.getD (j + 1) 0 - xp.getD j 0 := by linarith
    have hf : fp.getD j 0 ≤ fp.getD (j + 1) 0 := hfp j (j + 1) (Nat.le_succ _) hj1
    have hterm : 0 ≤ (fp.getD (j + 1) 0 - fp.getD j 0) * (x - xp.getD j 0) /
        (xp.getD (j + 1) 0 - xp.getD j 0) :=
      div_nonneg (mul_nonneg (by linarith) (by linarith)) (le_of_lt hd)
    have h0j : fp.getD 0 0 ≤ fp.getD j 0 := hfp 0 j (Nat.zero_le _) (by omega)
    linarith

/-- For non-decreasing values, interpolation never exceeds the last value. -/
theorem np_interp_le_last {α : Type*} [LinearOrderedField α] (x : α) (xp fp : List α)
    (hn : xp.length ≠ 0) (hlen : fp.length = xp.length) (hfp : SortedLe fp) :
    np_interp x xp fp ≤ fp.getD (fp.length - 1) 0 := by
  rcases np_interp_cases x xp fp hn with ⟨_, he⟩ | ⟨_, he⟩ |
    ⟨j, hn2, hj, _, hxj, hxj1, _, he⟩
  · rw [he]
    exact hfp 0 (fp.length - 1) (Nat.zero_le _) (by omega)
  · rw [he]
  · rw [he]
    have hj1 : j + 1 < fp.length := by omega
    have hd : 0 < xp.getD (j + 1) 0 - xp.getD j 0 := by linarith
    have hf : fp.getD j 0 ≤ fp.getD (j + 1) 0 := hfp j (j + 1) (Nat.le_succ _) hj1
    have hstep : (fp.getD (j + 1) 0 - fp.getD j 0) * (x - xp.getD j 0) /
        (xp.getD (j + 1) 0 - xp.getD j 0) ≤ fp.getD (j + 1) 0 - fp.getD j 0 := by
      rw [div_le_iff₀ hd]
      exact mul_le_mul_of_nonneg_left (by linarith) (by linarith)
    have hlast : fp.getD (j + 1) 0 ≤ fp.getD (fp.length - 1) 0 :=
      hfp (j + 1) (fp.length - 1) (by omega) (by omega)
    linarith

/-- Lower bound at a knot: if knot `k` lies at or below `x` then
interpolation of non-decreasing values is at least `fp[k]`. -/
theorem np_interp_ge_at {α : Type*} [LinearOrderedField α] (x : α) (xp fp : List α)
    (hxp : SortedLe xp) (hfp : SortedLe fp) (hlen : fp.length = xp.length)
    (k : ℕ) (hk : k < xp.length) (hxk : xp.getD k 0 ≤ x) :
    fp.getD k 0 ≤ np_interp x xp fp := by
  have hn : xp.length ≠ 0 := by omega
  rcases np_interp_cases x xp fp hn with ⟨hlt, he⟩ | ⟨_, he⟩ |
    ⟨j, hn2, hj, hne, hxj, hxj1, hmax, he⟩
  · exact absurd hlt (not_lt.mpr (le_trans (hxp 0 k (Nat.zero_le _) hk) hxk))
  · rw [he]
    exact hfp k (fp.length - 1) (by omega) (by omega)
  · rw [he]
    have hkj : k ≤ j := by
      refine hmax k ?_ hxk
      rcases Nat.lt_or_ge k (xp.length - 1) with h | h
      · omega
      · exfalso
        have hke : k = xp.length - 1 := by omega
        rw [hke] at hxk
        exact hne hxk
    have hj1 : j + 1 < fp.length := by omega
    have hd : 0 < xp.getD (j + 1) 0 - xp.getD j 0 := by linarith
    have hf : fp.getD j 0 ≤ fp.getD (j + 1) 0 := hfp j (j + 1) (Nat.le_succ _) hj1
    have hterm : 0 ≤ (fp.getD (j + 1) 0 - fp.getD j 0) * (x - xp.getD j 0) /
        (xp.getD (j + 1) 0 - xp.getD j 0) :=
      div_nonneg (mul_nonneg (by linarith) (by linarith)) (le_of_lt hd)
    have hkj' : fp.getD k 0 ≤ fp.getD j 0 := hfp k j hkj (by omega)
    linarith

/-- Upper bound at a knot: if `x` lies strictly below knot `k` then
interpolation of non-decreasing values is at most `fp[k]`. -/
theorem np_interp_le_at {α : Type*} [LinearOrderedField α] (x : α) (xp fp : List α)
    (hxp : SortedLe xp) (hfp : SortedLe fp) (hlen : fp.length = xp.length)
    (k : ℕ) (hk : k < xp.length) (hxk : x < xp.getD k 0) :
    np_interp x xp fp ≤ fp.getD k 0 := by
  have hn : xp.length ≠ 0 := by omega
  rcases np_interp_cases x xp fp hn with ⟨_, he⟩ | ⟨hge, he⟩ |
    ⟨j, hn2, hj, hne, hxj, hxj1, hmax, he⟩
  · rw [he]
    exact hfp 0 k (Nat.zero_le _) (by omega)
  · exfalso
    have : xp.getD k 0 ≤ xp.getD (xp.length - 1) 0 := hxp k (xp.length - 1) (by omega) (by omega)
    linarith
  · rw [he]
    have hjk : j + 1 ≤ k := by
      by_contra hcon
      push_neg at hcon
      have : xp.getD k 0 ≤ xp.getD j 0 := hxp k j (by omega) (by omega)
      linarith
    have hj1 : j + 1 < fp.length := by omega
    have hd : 0 < xp.getD (j + 1) 0 - xp.getD j 0 := by linarith
    have hf : fp.getD j 0 ≤ fp.getD (j + 1) 0 := hfp j (j + 1) (Nat.le_succ _) hj1
    have hstep : (fp.getD (j + 1) 0 - fp.getD j 0) * (x - xp.getD j 0) /
        (xp.getD (j + 1) 0 - xp.getD j 0) ≤ fp.getD (j + 1) 0 - fp.getD j 0 := by
      rw [div_le_iff₀ hd]
      exact mul_le_mul_of_nonneg_left (by linarith) (by linarith)
    have hk1 : fp.getD (j + 1) 0 ≤ fp.getD k 0 := hfp (j + 1) k hjk (by omega)
    linarith

/-! ## Theorems: `npMax` and the cumulative-normalisation mechanism -/

theorem getD_map {α β : Type*} (g : α → β) (l : List α) (i : ℕ) (h : i < l.length)
    (d : α) (d' : β) : (l.map g).getD i d' = g (l.getD i d) := by
  rw [List.getD_eq_getElem _ _ (by simpa using h), List.getD_eq_getElem _ _ h]
  simp

theorem le_foldl_max {α : Type*} [LinearOrderedField α] (l : List α) (b : α) :
    b ≤ l.foldl max b := by
  induction l generalizing b with
  | nil => simp
  | cons a l ih => exact le_trans (le_max_left b a) (ih (max b a))

theorem mem_le_foldl_max {α : Type*} [LinearOrderedField α] {a : α} {l : List α}
    (b : α) (h : a ∈ l) : a ≤ l.foldl max b := by
  induction l generalizing b with
  | nil => simp at h
  | cons c l ih =>
    rcases List.mem_cons.mp h with rfl | h
    · exact le_trans (le_max_right b a) (le_foldl_max l (max b a))
    · exact ih (max b c) h

theorem foldl_max_mem {α : Type*} [LinearOrderedField α] (l : List α) (b : α) :
    l.foldl max b = b ∨ l.foldl max b ∈ l := by
  induction l generalizing b with
  | nil => left; rfl
  | cons a l ih =>
    rcases ih (max b a) with h | h
    · rcases max_choice b a with he | he
      · left; rw [List.foldl_cons, h, he]
      · right; rw [List.foldl_cons, h, he]; exact List.mem_cons_self a l
    · right
      exact List.mem_cons_of_mem a h

theorem mem_le_npMax {α : Type*} [LinearOrderedField α] {a : α} {l : List α}
    (h : a ∈ l) : a ≤ npMax l :=
  mem_le_foldl_max _ h

theorem npMax_mem {α : Type*} [LinearOrderedField α] {l : List α} (h : l ≠ []) :
    npMax l ∈ l := by
  rcases foldl_max_mem l (l.headD 0) with he | he
  · rw [npMax, he]
    rcases l with _ | ⟨a, t⟩
    · exact absurd rfl h
    · exact List.mem_cons_self a t
  · exact he

theorem sortedLe_npMax {α : Type*} [LinearOrderedField α] {l : List α}
    (hs : SortedLe l) (h : l ≠ []) : npMax l = l.getD (l.length - 1) 0 := by
  have hlen : 0 < l.length := List.length_pos.mpr h
  refine le_antisymm ?_ ?_
  · rcases List.mem_iff_getElem.mp (npMax_mem h) with ⟨i, hi, he⟩
    rw [← he, ← List.getD_eq_getElem l 0 hi]
    exact hs i (l.length - 1) (by omega) (by omega)
  · refine mem_le_npMax ?_
    rw [List.getD_eq_getElem l 0 (by omega)]
    exact List.getElem_mem _

theorem cumsum0_length {α : Type*} [LinearOrderedField α] (f : List α) :
    (cumsum0 f).length = f.length := by
  simp [cumsum0]

theorem cumsum0_getD {α : Type*} [LinearOrderedField α] (f : List α) {j : ℕ}
    (hj : j < f.length) :
    (cumsum0 f).getD j 0 = (f.take (j + 1)).sum - f.headD 0 := by
  rw [List.getD_eq_getElem _ _ (by simpa [cumsum0_length] using hj)]
  simp [cumsum0]

theorem cumsum0_sorted {α : Type*} [LinearOrderedField α] {f : List α}
    (hnn : ∀ x ∈ f, 0 ≤ x) : SortedLe (cumsum0 f) := by
  intro i j hij hj
  rw [cumsum0_length] at hj
  rw [cumsum0_getD f (lt_of_le_of_lt (by omega) hj), cumsum0_getD f hj]
  have hsplit : f.take (j + 1) = f.take (i + 1) ++ (f.drop (i + 1)).take (j - i) := by
    rw [← List.take_add]
    congr 1
    omega
  have hnn' : 0 ≤ ((f.drop (i + 1)).take (j - i)).sum := by
    refine List.sum_nonneg fun x hx => hnn x ?_
    exact List.mem_of_mem_drop (List.mem_of_mem_take hx)
  rw [hsplit, List.sum_append]
  linarith

theorem cumsum0_head {α : Type*} [LinearOrderedField α] {f : List α} (h : f ≠ []) :
    (cumsum0 f).getD 0 0 = 0 := by
  rcases f with _ | ⟨a, t⟩
  · exact absurd rfl h
  · rw [cumsum0_getD _ (by simp)]
    simp

theorem cumsum0_last {α : Type*} [LinearOrderedField α] {f : List α} (h : f ≠ []) :
    (cumsum0 f).getD (f.length - 1) 0 = f.tail.sum := by
  have hlen : 0 < f.length := List.length_pos.mpr h
  rw [cumsum0_getD f (by omega)]
  have : f.length - 1 + 1 = f.length := by omega
  rw [this, List.take_length]
  rcases f with _ | ⟨a, t⟩
  · exact absurd rfl h
  · simp

theorem npMax_cumsum0 {α : Type*} [LinearOrderedField α] {f : List α} (h : f ≠ [])
    (hnn : ∀ x ∈ f, 0 ≤ x) : npMax (cumsum0 f) = f.tail.sum := by
  have hne : cumsum0 f ≠ [] := by
    intro hc
    have := cumsum0_length f
    rw [hc] at this
    exact h (List.length_eq_zero.mp this.symm)
  rw [sortedLe_npMax (cumsum0_sorted hnn) hne, cumsum0_length]
  exact cumsum0_last h

/-- The normalised CDF slice produced for a non-degenerate non-negative
density: `some` of a non-decreasing list starting at `0`, ending at `1`,
with all entries in `[0, 1]`. -/
theorem cumNormalize_some_spec {f : List α} [LinearOrderedField α] (hne : f ≠ [])
    (hnn : ∀ x ∈ f, 0 ≤ x) (hpos : 0 < f.tail.sum) :
    ∃ r, cumNormalize f = some r ∧ SortedLe r ∧ r.length = f.length ∧
      r.getD 0 0 = 0 ∧ r.getD (r.length - 1) 0 = 1 ∧ ∀ y ∈ r, 0 ≤ y ∧ y ≤ 1 := by
  have hM : npMax (cumsum0 f) = f.tail.sum := npMax_cumsum0 hne hnn
  have hMpos : 0 < npMax (cumsum0 f) := hM ▸ hpos
  have hlen : (cumsum0 f).length = f.length := cumsum0_length f
  have hflen : 0 < f.length := List.length_pos.mpr hne
  have hsorted := cumsum0_sorted hnn
  refine ⟨(cumsum0 f).map (· / npMax (cumsum0 f)), ?_, ?_, ?_, ?_, ?_, ?_⟩
  · rw [cumNormalize]
    simp only [if_neg (ne_of_gt hMpos)]
  · intro i j hij hj
    rw [List.length_map] at hj
    rw [getD_map _ _ _ (lt_of_le_of_lt (by omega) hj) 0, getD_map _ _ _ hj 0]
    exact (div_le_div_iff_of_pos_right hMpos).mpr (hsorted i j hij hj)
  · simp [hlen]
  · rw [getD_map _ _ _ (by omega) 0, cumsum0_head hne]
    simp
  · rw [List.length_map, hlen, getD_map _ _ _ (by omega) 0, cumsum0_last hne, ← hM]
    exact div_self (ne_of_gt hMpos)
  · intro y hy
    rcases List.mem_iff_getElem.mp hy with ⟨i, hi, he⟩
    rw [List.length_map] at hi
    have he' : y = (cumsum0 f).getD i 0 / npMax (cumsum0 f) := by
      rw [← he, List.getElem_map, List.getD_eq_getElem _ _ hi]
    have h0 : 0 ≤ (cumsum0 f).getD i 0 := by
      have := hsorted 0 i (Nat.zero_le _) hi
      rwa [cumsum0_head hne] at this
    have h1 : (cumsum0 f).getD i 0 ≤ npMax (cumsum0 f) := by
      rw [List.getD_eq_getElem _ _ hi]
      exact mem_le_npMax (List.getElem_mem _)
    constructor
    · rw [he']
      exact div_nonneg h0 (le_of_lt hMpos)
    · rw [he']
      rw [div_le_one hMpos]
      exact h1

/-- C1: invariant of the CDF-building mechanism of `populate_pdfs` (lines
459-461, 506-508, 550-555).  For every non-negative density slice with
positive support, the cumulate-offset-normalise step yields a non-decreasing
slice starting at `0` and ending at `1`, with all entries in `[0, 1]`; the
period-table variant, rescaled by the (non-negative) quadrature value `I`,
yields a non-decreasing slice with final value exactly `I` and entries in
`[0, I]`.  (The literal `populate_pdfs` raises `NameError` on the undefined
`num1M1` before building any tensor; this theorem verifies the invariant of
the evident tensor-building mechanism.) -/
theorem cdf_build_invariant (f g : List ℚ) (I : ℚ) (hfne : f ≠ [])
    (hfnn : ∀ x ∈ f, 0 ≤ x) (hfpos : 0 < f.tail.sum)
    (hgne : g ≠ []) (hgnn : ∀ x ∈ g, 0 ≤ x) (hgpos : 0 < g.tail.sum) (hI : 0 ≤ I) :
    (∃ r, cumNormalize f = some r ∧ SortedLe r ∧ r.getD 0 0 = 0 ∧
      r.getD (r.length - 1) 0 = 1 ∧ ∀ y ∈ r, 0 ≤ y ∧ y ≤ 1) ∧
    (∃ s, pbinNormalize g I = some s ∧ SortedLe s ∧
      s.getD (s.length - 1) 0 = I ∧ ∀ y ∈ s, 0 ≤ y ∧ y ≤ I) := by
  constructor
  · rcases cumNormalize_some_spec hfne hfnn hfpos with ⟨r, h1, h2, _, h4, h5, h6⟩
    exact ⟨r, h1, h2, h4, h5, h6⟩
  · rcases cumNormalize_some_spec hgne hgnn hgpos with ⟨r, h1, h2, hlen, h4, h5, h6⟩
    have hrlen : 0 < r.length := by
      have := List.length_pos.mpr hgne
      omega
    refine ⟨r.map (· * I), ?_, ?_, ?_, ?_⟩
    · rw [pbinNormalize, h1, Option.map_some']
    · intro i j hij hj
      rw [List.length_map] at hj
      rw [getD_map _ _ _ (lt_of_le_of_lt (by omega) hj) 0, getD_map _ _ _ hj 0]
      exact mul_le_mul_of_nonneg_right (h2 i j hij hj) hI
    · rw [List.length_map, getD_map _ _ _ (by omega) 0, h5, one_mul]
    · intro y hy
      rcases List.mem_map.mp hy with ⟨z, hz, he⟩
      rcases h6 z hz with ⟨hz0, hz1⟩
      constructor
      · rw [← he]
        exact mul_nonneg hz0 hI
      · rw [← he]
        calc z * I ≤ 1 * I := mul_le_mul_of_nonneg_right hz1 hI
          _ = I := one_mul I

/-- Witness for `cdf_build_invariant` at the density `[1, 2, 3]` and the
quadrature value `1/2`. -/
theorem cdf_build_invariant_witness :
    (([1, 2, 3] : List ℚ) ≠ [] ∧ (∀ x ∈ ([1, 2, 3] : List ℚ), 0 ≤ x) ∧
      0 < ([1, 2, 3] : List ℚ).tail.sum ∧ (0 : ℚ) ≤ 1 / 2) ∧
    (∃ r, cumNormalize ([1, 2, 3] : List ℚ) = some r ∧ SortedLe r ∧
      r.getD 0 0 = 0 ∧ r.getD (r.length - 1) 0 = 1 ∧ ∀ y ∈ r, 0 ≤ y ∧ y ≤ 1) ∧
    (∃ s, pbinNormalize ([1, 2, 3] : List ℚ) (1 / 2) = some s ∧ SortedLe s ∧
      s.getD (s.length - 1) 0 = 1 / 2 ∧ ∀ y ∈ s, 0 ≤ y ∧ y ≤ 1 / 2) := by
  have h := cdf_build_invariant [1, 2, 3] [1, 2, 3] (1 / 2) (by simp)
    (by norm_num) (by norm_num) (by simp) (by norm_num) (by norm_num) (by norm_num)
  exact ⟨⟨by simp, by norm_num, by norm_num, by norm_num⟩, h.1, h.2⟩

/-- C3 counterexample: for the zero density slice `[0, 0, 0]` (cumulative
maximum `0`), the unguarded normalisation of the source performs the division
by zero (an invalid float result, embedded as `none`); it does not produce
the all-zero CDF claimed. -/
theorem cumNormalize_zero_slice_not_zero_cdf :
    cumNormalize ([0, 0, 0] : List ℚ) = none ∧
    cumNormalize ([0, 0, 0] : List ℚ) ≠ some [0, 0, 0] := by
  have h : cumNormalize ([0, 0, 0] : List ℚ) = none := by
    norm_num [cumNormalize, cumsum0, npMax, List.range_succ]
  rw [h]
  exact ⟨rfl, by simp⟩

/-- C3 (amended): the source has no guard at lines 459-460/506-507; for a
non-negative density slice the normalisation step yields an invalid result
(`none`, a float `nan` slice) exactly when the slice has zero cumulative
maximum, and otherwise a CDF whose final entry is `1` — an all-zero CDF is
never produced. -/
theorem cumNormalize_unguarded (f : List ℚ) (hne : f ≠ [])
    (hnn : ∀ x ∈ f, 0 ≤ x) :
    (cumNormalize f = none ↔ f.tail.sum = 0) ∧
    ∀ r, cumNormalize f = some r → r.getD (r.length - 1) 0 = 1 := by
  have hM : npMax (cumsum0 f) = f.tail.sum := npMax_cumsum0 hne hnn
  constructor
  · by_cases h0 : npMax (cumsum0 f) = 0
    · have h1 : cumNormalize f = none := by rw [cumNormalize]; simp [h0]
      have h2 : f.tail.sum = 0 := by rw [← hM]; exact h0
      simp [h1, h2]
    · have h1 : cumNormalize f ≠ none := by rw [cumNormalize]; simp [h0]
      have h2 : f.tail.sum ≠ 0 := by rw [← hM]; exact h0
      exact iff_of_false h1 h2
  · intro r hr
    have hpos : 0 < f.tail.sum := by
      have hts : 0 ≤ f.tail.sum :=
        List.sum_nonneg fun x hx => hnn x (List.tail_subset f hx)
      rcases eq_or_lt_of_le hts with he | hlt
      · exfalso
        have h0 : npMax (cumsum0 f) = 0 := by rw [hM]; exact he.symm
        rw [cumNormalize] at hr
        simp [h0] at hr
      · exact hlt
    rcases cumNormalize_some_spec hne hnn hpos with ⟨r', hr', _, _, _, hlast', _⟩
    rw [hr] at hr'
    rw [Option.some_inj.mp hr']
    exact hlast'

/-- Witness for `cumNormalize_unguarded` at the slice `[5, 0, 0]`, whose
cumulative maximum is `0` (the degenerate case). -/
theorem cumNormalize_unguarded_witness :
    (([5, 0, 0] : List ℚ) ≠ [] ∧ ∀ x ∈ ([5, 0, 0] : List ℚ), 0 ≤ x) ∧
    ((cumNormalize ([5, 0, 0] : List ℚ) = none ↔
        ([5, 0, 0] : List ℚ).tail.sum = 0) ∧
      ∀ r, cumNormalize ([5, 0, 0] : List ℚ) = some r →
        r.getD (r.length - 1) 0 = 1) :=
  ⟨⟨by simp, by norm_num⟩, cumNormalize_unguarded [5, 0, 0] (by simp) (by norm_num)⟩

/-! ## Theorems: the quadrature primitive -/

theorem polyIntegral_add (b : ℚ) (P Q : Polynomial ℚ) :
    polyIntegral b (P + Q) = polyIntegral b P + polyIntegral b Q := by
  unfold polyIntegral
  rw [Polynomial.sum_add_index]
  · intro n
    simp
  · intro n a c
    ring

theorem polyIntegral_zero (b : ℚ) : polyIntegral b 0 = 0 := by
  unfold polyIntegral
  exact Polynomial.sum_zero_index _

theorem polyIntegral_finsum (b : ℚ) {ι : Type*} (s : Finset ι) (g : ι → Polynomial ℚ) :
    polyIntegral b (∑ i ∈ s, g i) = ∑ i ∈ s, polyIntegral b (g i) := by
  induction s using Finset.cons_induction with
  | empty => simpa using polyIntegral_zero b
  | cons a s ha ih => rw [Finset.sum_cons, Finset.sum_cons, polyIntegral_add, ih]

theorem polyIntegral_one (b : ℚ) : polyIntegral b 1 = b := by
  unfold polyIntegral
  rw [← Polynomial.C_1, Polynomial.sum_C_index]
  · norm_num
  · norm_num

/-- The Newton-Cotes weights of any injective node vector sum to the length
of the integration interval (exactness of the rule on constants). -/
theorem ncWeights_sum (rn : List ℚ) (hne : rn ≠ [])
    (hinj : Function.Injective fun j : Fin rn.length => rn.getD j 0) :
    (ncWeights rn).sum = (rn.length : ℚ) - 1 := by
  have hpos : 0 < rn.length := List.length_pos.mpr hne
  rw [ncWeights, List.sum_ofFn, ← polyIntegral_finsum]
  have huniv : (Finset.univ : Finset (Fin rn.length)).Nonempty :=
    ⟨⟨0, hpos⟩, Finset.mem_univ _⟩
  rw [Lagrange.sum_basis (Function.Injective.injOn hinj) huniv, polyIntegral_one]

theorem zipWith_mul_replicate_sum (w : List ℚ) (k : ℚ) :
    (List.zipWith (· * ·) w (List.replicate w.length k)).sum = k * w.sum := by
  induction w with
  | nil => simp
  | cons a w ih =>
    rw [List.length_cons, List.replicate_succ, List.zipWith_cons_cons, List.sum_cons,
      List.sum_cons, ih]
    ring

/-- Adjacent strict increase propagates to arbitrary index pairs. -/
theorem chain_lt_getD {α : Type*} [LinearOrderedField α] {l : List α}
    (h : List.Chain' (· < ·) l) {i j : ℕ} (hij : i < j) (hj : j < l.length) :
    l.getD i 0 < l.getD j 0 := by
  have hp : l.Pairwise (· < ·) :=
    (List.chain'_iff_pairwise.mp h)
  have := List.pairwise_iff_get.mp hp ⟨i, by omega⟩ ⟨j, hj⟩ hij
  rwa [List.getD_eq_get _ _ (by omega), List.getD_eq_get _ _ hj]

/-- Exactness of `newton_cotes` on constants: for a strictly increasing window
`x` of at least two abscissas and the constant value list, the result is
`k * (x[-1] - x[0])`. -/
theorem newton_cotes_const (x : List ℚ) (k : ℚ) (hx : List.Chain' (· < ·) x)
    (h2 : 2 ≤ x.length) :
    newton_cotes x (List.replicate x.length k) =
      k * (x.getD (x.length - 1) 0 - x.getD 0 0) := by
  have heval : newton_cotes x (List.replicate x.length k) =
      (x.getD (x.length - 1) 0 - x.getD 0 0) / ((x.length : ℚ) - 1) *
        (List.zipWith (· * ·)
          (ncWeights (x.map fun t => ((x.length : ℚ) - 1) * (t - x.getD 0 0) /
            (x.getD (x.length - 1) 0 - x.getD 0 0)))
          (List.replicate x.length k)).sum := by
    rw [newton_cotes, if_neg (not_lt.mpr h2)]
  have hx0l : x.getD 0 0 < x.getD (x.length - 1) 0 :=
    chain_lt_getD hx (by omega) (by omega)
  have hn1 : ((x.length : ℚ) - 1) ≠ 0 := by
    have : (2 : ℚ) ≤ (x.length : ℚ) := by exact_mod_cast h2
    linarith
  have hd : x.getD (x.length - 1) 0 - x.getD 0 0 ≠ 0 := by
    intro hc
    exact absurd hc (by linarith)
  set rn := x.map fun t =>
    ((x.length : ℚ) - 1) * (t - x.getD 0 0) /
      (x.getD (x.length - 1) 0 - x.getD 0 0) with hrn
  have hrnlen : rn.length = x.length := by rw [hrn, List.length_map]
  have hrngetD : ∀ i, i < x.length →
      rn.getD i 0 = ((x.length : ℚ) - 1) / (x.getD (x.length - 1) 0 - x.getD 0 0) *
        (x.getD i 0 - x.getD 0 0) := by
    intro i hi
    rw [hrn, getD_map _ _ _ hi 0]
    ring
  have hfac : ((x.length : ℚ) - 1) / (x.getD (x.length - 1) 0 - x.getD 0 0) ≠ 0 :=
    div_ne_zero hn1 hd
  have hinj : Function.Injective fun j : Fin rn.length => rn.getD j 0 := by
    intro a b hab
    simp only at hab
    rw [hrngetD a (by omega), hrngetD b (by omega)] at hab
    have hxa : x.getD (a : ℕ) 0 = x.getD (b : ℕ) 0 := by
      have := mul_left_cancel₀ hfac hab
      linarith
    by_contra hne
    rcases Fin.lt_or_lt_of_ne hne with hlt | hlt
    · exact absurd hxa (ne_of_lt (chain_lt_getD hx hlt (by omega)))
    · exact absurd hxa.symm (ne_of_lt (chain_lt_getD hx hlt (by omega)))
  have hrne : rn ≠ [] := by
    intro hc
    rw [hc] at hrnlen
    simp at hrnlen
    omega
  have hzip : (List.zipWith (· * ·) (ncWeights rn) (List.replicate x.length k)).sum =
      k * (ncWeights rn).sum := by
    have hw : (ncWeights rn).length = rn.length := by
      rw [ncWeights, List.length_ofFn]
    calc (List.zipWith (· * ·) (ncWeights rn) (List.replicate x.length k)).sum
        = (List.zipWith (· * ·) (ncWeights rn)
            (List.replicate (ncWeights rn).length k)).sum := by rw [hw, hrnlen]
      _ = k * (ncWeights rn).sum := zipWith_mul_replicate_sum _ k
  rw [heval, hzip, ncWeights_sum rn hrne hinj, hrnlen]
  field_simp
  ring

/-- C5: the quadrature primitive applied to a constant function `f(x) = k`
over a strictly increasing abscissa grid of length at least two returns
exactly `k * (b - a)` over exact rational arithmetic, where `a`, `b` are the
first and last abscissas. -/
theorem idl_tabulate_const (x : List ℚ) (k : ℚ) (hx : List.Chain' (· < ·) x)
    (h2 : 2 ≤ x.length) :
    idl_tabulate x (List.replicate x.length k) =
      k * (x.getD (x.length - 1) 0 - x.getD 0 0) := by
  have main : ∀ n (x : List ℚ), x.length = n → List.Chain' (· < ·) x →
      2 ≤ x.length → idl_tabulate x (List.replicate x.length k) =
        k * (x.getD (x.length - 1) 0 - x.getD 0 0) := by
    intro n
    induction n using Nat.strong_induction_on with
    | _ n ih =>
      intro x hxn hchain hlen
      have hne : x ≠ [] := by
        intro hc
        rw [hc] at hlen
        simp at hlen
      rw [idl_tabulate, dif_neg hne]
      have htake : (List.replicate x.length k).take 5 = List.replicate (min 5 x.length) k :=
        List.take_replicate _ _ _
      have hdrop : (List.replicate x.length k).drop 4 = List.replicate (x.length - 4) k :=
        List.drop_replicate _ _ _
      rcases le_or_lt x.length 5 with h5 | h5
      · have htx : x.take 5 = x := List.take_all_of_le h5
        have hmin : min 5 x.length = x.length := by omega
        rw [htake, hmin, htx, newton_cotes_const x k hchain hlen]
        have hdrop0 : idl_tabulate (x.drop 4) ((List.replicate x.length k).drop 4) = 0 := by
          rcases le_or_lt x.length 4 with h4 | h4
          · have : x.drop 4 = [] := List.drop_eq_nil_of_le h4
            rw [this, idl_tabulate]
            simp
          · have hx5 : x.length = 5 := by omega
            have hd1 : (x.drop 4).length = 1 := by
              rw [List.length_drop, hx5]
            rw [idl_tabulate, dif_neg (by
              intro hc
              rw [hc] at hd1
              simp at hd1)]
            have hnc : newton_cotes ((x.drop 4).take 5)
                (((List.replicate x.length k).drop 4).take 5) = 0 := by
              rw [newton_cotes, if_pos]
              rw [List.length_take, hd1]
              omega
            have hrest : idl_tabulate ((x.drop 4).drop 4)
                (((List.replicate x.length k).drop 4).drop 4) = 0 := by
              have : (x.drop 4).drop 4 = [] := by
                apply List.drop_eq_nil_of_le
                rw [hd1]
                omega
              rw [this, idl_tabulate]
              simp
            rw [hnc, hrest]
            ring
        rw [hdrop0]
        ring
      · have hmin : min 5 x.length = 5 := by omega
        have htx5 : (x.take 5).length = 5 := by
          rw [List.length_take]
          omega
        have hnc : newton_cotes (x.take 5) ((List.replicate x.length k).take 5) =
            k * (x.getD 4 0 - x.getD 0 0) := by
          have hrep : (List.replicate x.length k).take 5 =
              List.replicate (x.take 5).length k := by
            rw [htake, hmin, htx5]
          rw [hrep, newton_cotes_const (x.take 5) k (hchain.take 5) (by rw [htx5]; norm_num)]
          rw [htx5]
          congr 1
          congr 1
          · rw [List.getD_eq_getElem _ _ (by rw [htx5]; omega),
              List.getD_eq_getElem _ _ (by omega : (4 : ℕ) < x.length)]
            simp [List.getElem_take]
          · rw [List.getD_eq_getElem _ _ (by rw [htx5]; omega),
              List.getD_eq_getElem _ _ (by omega : (0 : ℕ) < x.length)]
            simp [List.getElem_take]
        have hdl : (x.drop 4).length = x.length - 4 := List.length_drop _ _
        have hih : idl_tabulate (x.drop 4) (List.replicate (x.drop 4).length k) =
            k * ((x.drop 4).getD ((x.drop 4).length - 1) 0 - (x.drop 4).getD 0 0) := by
          refine ih (x.drop 4).length (by omega) (x.drop 4) rfl (hchain.drop 4) (by omega)
        have hd0 : (x.drop 4).getD 0 0 = x.getD 4 0 := by
          rw [List.getD_eq_getElem _ _ (by omega), List.getD_eq_getElem _ _ (by omega)]
          simp [List.getElem_drop]
        have hdlast : (x.drop 4).getD ((x.drop 4).length - 1) 0 =
            x.getD (x.length - 1) 0 := by
          rw [List.getD_eq_getElem _ _ (by omega), List.getD_eq_getElem _ _ (by omega)]
          simp only [List.getElem_drop]
          congr 1
          omega
        rw [hnc, hdrop, ← hdl, hih, hd0, hdlast]
        ring
  exact main x.length x rfl hx h2

/-- Witness for `idl_tabulate_const` on the grid `[0, 1, 2, 3, 4, 5]` with
constant value `2`: the integral is `2 * (5 - 0) = 10` (this exercises both
a 5-point window and a trailing 2-point window). -/
theorem idl_tabulate_const_witness :
    List.Chain' (· < ·) ([0, 1, 2, 3, 4, 5] : List ℚ) ∧
    2 ≤ ([0, 1, 2, 3, 4, 5] : List ℚ).length ∧
    idl_tabulate ([0, 1, 2, 3, 4, 5] : List ℚ) (List.replicate 6 (2 : ℚ)) = 10 := by
  have hc : List.Chain' (· < ·) ([0, 1, 2, 3, 4, 5] : List ℚ) := by
    norm_num [List.chain'_cons]
  refine ⟨hc, by norm_num, ?_⟩
  have h := idl_tabulate_const [0, 1, 2, 3, 4, 5] 2 hc (by norm_num)
  rw [show (10 : ℚ) = 2 * 5 by norm_num]
  simpa using h

/-! ## Theorems: the independent-axis samplers -/

/-- C10: for strictly positive primary masses and mass-ratio draws in
`[0.001, 1)` (the range of `np.random.uniform(0.001, 1, size)`), every
secondary mass returned by `sample_secondary` is at least `0.001` times and
strictly less than its corresponding primary mass. -/
theorem sample_secondary_bounds (pm u : List ℝ) (hlen : pm.length = u.length)
    (hp : ∀ x ∈ pm, 0 < x) (hu : ∀ y ∈ u, 0.001 ≤ y ∧ y < 1) :
    (sample_secondary pm u).length = pm.length ∧
    ∀ i, i < pm.length →
      0.001 * pm.getD i 0 ≤ (sample_secondary pm u).getD i 0 ∧
      (sample_secondary pm u).getD i 0 < pm.getD i 0 := by
  constructor
  · rw [sample_secondary, List.length_zipWith]
    omega
  · intro i hi
    have hiu : i < u.length := by omega
    have hz : (sample_secondary pm u).getD i 0 = pm.getD i 0 * u.getD i 0 := by
      rw [sample_secondary,
        List.getD_eq_getElem _ _ (by rw [List.length_zipWith]; omega),
        List.getElem_zipWith, List.getD_eq_getElem _ _ hi, List.getD_eq_getElem _ _ hiu]
    have hpi : 0 < pm.getD i 0 := by
      rw [List.getD_eq_getElem _ _ hi]
      exact hp _ (List.getElem_mem _)
    have hui : 0.001 ≤ u.getD i 0 ∧ u.getD i 0 < 1 := by
      refine hu _ ?_
      rw [List.getD_eq_getElem _ _ hiu]
      exact List.getElem_mem _
    rw [hz]
    constructor
    · calc 0.001 * pm.getD i 0 ≤ u.getD i 0 * pm.getD i 0 :=
          mul_le_mul_of_nonneg_right hui.1 (le_of_lt hpi)
        _ = pm.getD i 0 * u.getD i 0 := mul_comm _ _
    · calc pm.getD i 0 * u.getD i 0 < pm.getD i 0 * 1 :=
          mul_lt_mul_of_pos_left hui.2 hpi
        _ = pm.getD i 0 := mul_one _

/-- Witness for `sample_secondary_bounds` at primary `[2]` and draw `[1/2]`. -/
theorem sample_secondary_bounds_witness :
    (([2] : List ℝ).length = ([1 / 2] : List ℝ).length ∧
      (∀ x ∈ ([2] : List ℝ), 0 < x) ∧
      ∀ y ∈ ([1 / 2] : List ℝ), 0.001 ≤ y ∧ y < 1) ∧
    ((sample_secondary [2] [1 / 2]).length = ([2] : List ℝ).length ∧
      ∀ i, i < ([2] : List ℝ).length →
        0.001 * ([2] : List ℝ).getD i 0 ≤ (sample_secondary [2] [1 / 2]).getD i 0 ∧
        (sample_secondary [2] [1 / 2]).getD i 0 < ([2] : List ℝ).getD i 0) :=
  ⟨⟨by norm_num, by norm_num, by norm_num⟩,
    sample_secondary_bounds [2] [1 / 2] (by norm_num) (by norm_num) (by norm_num)⟩

/-- C6 counterexample: an unrecognised selector (here `"gaussian"`) makes
each of the three model-selecting samplers fall off the end of the function
and silently return `None` (embedded: `none`); no error is raised and no
message names the invalid selector. -/
theorem invalid_selector_silent_none :
    sample_porb "gaussian" 1 1 [] = none ∧ sample_ecc "gaussian" [] = none ∧
    sample_SFH "gaussian" [] = none := by
  refine ⟨?_, ?_, ?_⟩ <;> simp [sample_porb, sample_ecc, sample_SFH]

/-- C6 (amended): for every selector outside the recognised enumerations
(`{Han, log_normal}`, `{thermal, uniform}`, `{const, burst}`), the samplers
silently return `None` (`none`) — they do not fail fast. -/
theorem invalid_selector_falls_through (model : String) (m1 m2 : ℝ) (u : List ℝ)
    (hp : model ≠ "Han" ∧ model ≠ "log_normal")
    (he : model ≠ "thermal" ∧ model ≠ "uniform")
    (hs : model ≠ "const" ∧ model ≠ "burst") :
    sample_porb model m1 m2 u = none ∧ sample_ecc model u = none ∧
    sample_SFH model u = none := by
  refine ⟨?_, ?_, ?_⟩
  · rw [sample_porb, if_neg hp.1, if_neg hp.2]
  · rw [sample_ecc, if_neg he.1, if_neg he.2]
  · rw [sample_SFH, if_neg hs.1, if_neg hs.2]

/-- Witness for `invalid_selector_falls_through` at the selector `"bar"`. -/
theorem invalid_selector_falls_through_witness :
    (("bar" ≠ "Han" ∧ "bar" ≠ "log_normal") ∧
      ("bar" ≠ "thermal" ∧ "bar" ≠ "uniform") ∧
      ("bar" ≠ "const" ∧ "bar" ≠ "burst")) ∧
    (sample_porb "bar" 1 1 [] = none ∧ sample_ecc "bar" [] = none ∧
      sample_SFH "bar" [] = none) :=
  ⟨⟨⟨by decide, by decide⟩, ⟨by decide, by decide⟩, ⟨by decide, by decide⟩⟩,
    invalid_selector_falls_through "bar" 1 1 [] ⟨by decide, by decide⟩
      ⟨by decide, by decide⟩ ⟨by decide, by decide⟩⟩

/-- C7 counterexample: with primary mass `10` (binary fraction exactly
`1/2 + 1/4*log10(10) = 0.75`) and uniform draw `0.75`, both strict
comparisons of `binary_select` fail and the mass lands in neither output:
the split is not an exact partition of the input for every draw. -/
theorem binary_select_drops_tie : binary_select [10] [3 / 4] = ([], []) := by
  have hf : binary_fraction 10 = 3 / 4 := by
    rw [binary_fraction, Real.logb_self_eq_one (by norm_num)]
    norm_num
  simp [binary_select, hf]

/-- The two filterMap outputs of `binary_select` recombine to the full first
projection whenever no pair is an exact tie. -/
theorem binary_split_partition_helper (l : List (ℝ × ℝ))
    (hne : ∀ p ∈ l, binary_fraction p.1 ≠ p.2) :
    ((l.filterMap fun p =>
        if binary_fraction p.1 > p.2 then some p.1 else none : List ℝ) : Multiset ℝ) +
      ((l.filterMap fun p =>
        if binary_fraction p.1 < p.2 then some p.1 else none : List ℝ) : Multiset ℝ) =
      ((l.map Prod.fst : List ℝ) : Multiset ℝ) := by
  induction l with
  | nil => simp
  | cons p l ih =>
    have hp := hne p (List.mem_cons_self _ _)
    have ihl := ih fun q hq => hne q (List.mem_cons_of_mem _ hq)
    rcases lt_or_gt_of_ne hp with hlt | hgt
    · have h1 : ¬binary_fraction p.1 > p.2 := not_lt.mpr (le_of_lt hlt)
      rw [List.filterMap_cons_none (by simp [h1]),
        List.filterMap_cons_some
          (f := fun q : ℝ × ℝ => if binary_fraction q.1 < q.2 then some q.1 else none)
          (b := p.1) (by simp [hlt]), List.map_cons,
        ← Multiset.cons_coe, ← Multiset.cons_coe, Multiset.add_cons, ihl]
    · have h1 : ¬binary_fraction p.1 < p.2 := not_lt.mpr (le_of_lt hgt)
      rw [List.filterMap_cons_some
          (f := fun q : ℝ × ℝ => if binary_fraction q.1 > q.2 then some q.1 else none)
          (b := p.1) (by simp [hgt]),
        List.filterMap_cons_none (by simp [h1]), List.map_cons,
        ← Multiset.cons_coe, ← Multiset.cons_coe, Multiset.cons_add, ihl]

/-- C7 (amended): `binary_select` reproduces the binary fraction
`0.5 + 0.25*log10(mass)` (`0.75` at mass `10`), and its two outputs
partition the input masses exactly (as multisets) whenever no mass has a
draw exactly equal to its binary fraction; a mass with a tied draw appears
in neither output. -/
theorem binary_select_partition (pm u : List ℝ) (hlen : pm.length = u.length)
    (hne : ∀ p ∈ pm.zip u, binary_fraction p.1 ≠ p.2) :
    (((binary_select pm u).1 : List ℝ) : Multiset ℝ) +
        (((binary_select pm u).2 : List ℝ) : Multiset ℝ) = (pm : Multiset ℝ) ∧
      binary_fraction 10 = 3 / 4 := by
  constructor
  · have h := binary_split_partition_helper (pm.zip u) hne
    rwa [List.map_fst_zip pm u (le_of_eq hlen)] at h
  · rw [binary_fraction, Real.logb_self_eq_one (by norm_num)]
    norm_num

/-- Witness for `binary_select_partition` at masses `[10]` and draw `[1/2]`
(fraction `0.75 ≠ 0.5`, so the mass lands in exactly one output). -/
theorem binary_select_partition_witness :
    (([10] : List ℝ).length = ([1 / 2] : List ℝ).length ∧
      ∀ p ∈ ([10] : List ℝ).zip ([1 / 2] : List ℝ), binary_fraction p.1 ≠ p.2) ∧
    ((((binary_select [10] [1 / 2]).1 : List ℝ) : Multiset ℝ) +
        (((binary_select [10] [1 / 2]).2 : List ℝ) : Multiset ℝ) =
        (([10] : List ℝ) : Multiset ℝ) ∧
      binary_fraction 10 = 3 / 4) := by
  have hfr : binary_fraction 10 = 3 / 4 := by
    rw [binary_fraction, Real.logb_self_eq_one (by norm_num)]
    norm_num
  have hne : ∀ p ∈ ([10] : List ℝ).zip ([1 / 2] : List ℝ),
      binary_fraction p.1 ≠ p.2 := by
    intro p hp
    simp only [List.zip_cons_cons, List.zip_nil_right, List.mem_singleton] at hp
    rw [hp, hfr]
    norm_num
  exact ⟨⟨by norm_num, hne⟩, binary_select_partition [10] [1 / 2] (by norm_num) hne⟩

/-! ## Theorems: the multi-dimensional sampler -/

/-- Exact value of `np_interp` on the interval `[xp[j], xp[j+1])`. -/
theorem np_interp_eval {α : Type*} [LinearOrderedField α] (x : α) (xp fp : List α)
    (hxp : SortedLe xp) (j : ℕ) (hj1 : j + 1 < xp.length)
    (hxj : xp.getD j 0 ≤ x) (hxj1 : x < xp.getD (j + 1) 0) :
    np_interp x xp fp =
      fp.getD j 0 + (fp.getD (j + 1) 0 - fp.getD j 0) * (x - xp.getD j 0) /
        (xp.getD (j + 1) 0 - xp.getD j 0) := by
  have hn : xp.length ≠ 0 := by omega
  have h1 : ¬x < xp.getD 0 0 :=
    not_lt.mpr (le_trans (hxp 0 j (Nat.zero_le _) (by omega)) hxj)
  have h2 : ¬xp.getD (xp.length - 1) 0 ≤ x :=
    not_le.mpr (lt_of_lt_of_le hxj1 (hxp (j + 1) (xp.length - 1) (by omega) (by omega)))
  have hfind : Nat.findGreatest (fun i => xp.getD i 0 ≤ x) (xp.length - 2) = j := by
    rw [Nat.findGreatest_eq_iff]
    refine ⟨by omega, fun _ => hxj, fun n hn1 hn2 => ?_⟩
    exact not_le.mpr (lt_of_lt_of_le hxj1 (hxp (j + 1) n hn1 (by omega)))
  rw [np_interp, if_neg hn, if_neg h1, if_neg h2]
  simp only [hfind]

theorem qvL_length {α : Type*} [LinearOrderedField α] : (qvL (α := α)).length = 91 := by
  simp [qvL]

theorem qvL_getD {α : Type*} [LinearOrderedField α] {k : ℕ} (h : k < 91) :
    (qvL (α := α)).getD k 0 = 1 / 10 + (k : α) / 100 := by
  rw [qvL, getD_ofFn _ _ _ h]

theorem qvL_sorted {α : Type*} [LinearOrderedField α] : SortedLe (qvL (α := α)) := by
  intro i j hij hj
  rw [qvL_length] at hj
  rw [qvL_getD (by omega), qvL_getD hj]
  have : (i : α) ≤ (j : α) := by exact_mod_cast hij
  linarith

theorem M1f_mono {i j : ℕ} (hij : i ≤ j) : M1f i ≤ M1f j := by
  rw [M1f, M1f]
  have hc : (i : ℝ) ≤ (j : ℝ) := by exact_mod_cast hij
  have h1 : 150 * (i : ℝ) / 149999 ≤ 150 * (j : ℝ) / 149999 := by
    apply div_le_div_of_nonneg_right ?h ?c
    case h => linarith
    case c => norm_num
  linarith

theorem M1f_ge (i : ℕ) : 0.08 ≤ M1f i := by
  rw [M1f]
  have hc : (0 : ℝ) ≤ (i : ℝ) := Nat.cast_nonneg i
  have h1 : 0 ≤ 150 * (i : ℝ) / 149999 := by positivity
  linarith

theorem M1f_pos (i : ℕ) : 0 < M1f i := lt_of_lt_of_le (by norm_num) (M1f_ge i)

theorem M1f_zero : M1f 0 = 0.08 := by
  rw [M1f]
  norm_num

theorem M1f_gt_of_pos {k : ℕ} (hk : 1 ≤ k) : 0.08 < M1f k := by
  rw [M1f]
  have hc : (1 : ℝ) ≤ (k : ℝ) := by exact_mod_cast hk
  have h1 : 0 < 150 * (k : ℝ) / 149999 := by positivity
  linarith

theorem M1list_length : M1list.length = 150000 := by
  rw [M1list]
  exact List.length_ofFn _

theorem M1list_getD {i : ℕ} (h : i < 150000) : M1list.getD i 0 = M1f i := by
  rw [M1list, getD_ofFn _ _ _ h]

theorem M1list_sorted : SortedLe M1list := by
  intro i j hij hj
  rw [M1list_length] at hj
  rw [M1list_getD (by omega), M1list_getD hj]
  exact M1f_mono hij

theorem fM1_pos (i : ℕ) : 0 < fM1 i := by
  rw [fM1]
  have hm := M1f_pos i
  split_ifs
  · exact div_pos (Real.rpow_pos_of_pos hm _) (Real.rpow_pos_of_pos (by norm_num) _)
  · exact Real.rpow_pos_of_pos hm _
  · exact Real.rpow_pos_of_pos hm _

theorem fM1list_length : fM1list.length = 150000 := by
  rw [fM1list]
  exact List.length_ofFn _

theorem fM1list_nonneg : ∀ x ∈ fM1list, 0 ≤ x := by
  intro x hx
  rw [fM1list] at hx
  rcases (List.mem_ofFn _ _).mp hx with ⟨i, hi⟩
  rw [← hi]
  exact le_of_lt (fM1_pos i.1)

theorem fM1list_ne : fM1list ≠ [] := by
  intro hc
  have := fM1list_length
  rw [hc] at this
  simp at this

theorem fM1list_tail_pos : 0 < fM1list.tail.sum := by
  refine List.sum_pos _ (fun x hx => ?_) ?_
  · have hx' := List.tail_subset _ hx
    rw [fM1list] at hx'
    rcases (List.mem_ofFn _ _).mp hx' with ⟨i, hi⟩
    rw [← hi]
    exact fM1_pos i.1
  · intro hc
    have h1 : fM1list.tail.length = 149999 := by
      rw [List.length_tail, fM1list_length]
    rw [hc] at h1
    simp at h1

theorem cumfM1raw_length : cumfM1raw.length = 150000 := by
  rw [cumfM1raw, cumsum0_length, fM1list_length]

theorem cumfM1raw_sorted : SortedLe cumfM1raw :=
  cumsum0_sorted fM1list_nonneg

theorem cumfM1raw_head : cumfM1raw.getD 0 0 = 0 :=
  cumsum0_head fM1list_ne

theorem cumfM1raw_npMax : npMax cumfM1raw = fM1list.tail.sum :=
  npMax_cumsum0 fM1list_ne fM1list_nonneg

theorem cumfM1raw_npMax_pos : 0 < npMax cumfM1raw := by
  rw [cumfM1raw_npMax]
  exact fM1list_tail_pos

theorem cumfM1raw_last : cumfM1raw.getD 149999 0 = fM1list.tail.sum := by
  have h := cumsum0_last fM1list_ne
  rwa [fM1list_length] at h

theorem cumfM1list_length : cumfM1list.length = 150000 := by
  rw [cumfM1list, List.length_map, cumfM1raw_length]

theorem cumfM1list_getD {i : ℕ} (h : i < 150000) :
    cumfM1list.getD i 0 = cumfM1raw.getD i 0 / npMax cumfM1raw := by
  rw [cumfM1list, getD_map _ _ _ (by rw [cumfM1raw_length]; omega) 0]

theorem cumfM1list_sorted : SortedLe cumfM1list := by
  intro i j hij hj
  rw [cumfM1list_length] at hj
  rw [cumfM1list_getD (by omega), cumfM1list_getD hj]
  exact (div_le_div_iff_of_pos_right cumfM1raw_npMax_pos).mpr
    (cumfM1raw_sorted i j hij (by rw [cumfM1raw_length]; omega))

theorem cumfM1list_head : cumfM1list.getD 0 0 = 0 := by
  rw [cumfM1list_getD (by norm_num), cumfM1raw_head, zero_div]

theorem cumfM1list_last : cumfM1list.getD 149999 0 = 1 := by
  rw [cumfM1list_getD (by norm_num), cumfM1raw_last, ← cumfM1raw_npMax]
  exact div_self (ne_of_gt cumfM1raw_npMax_pos)

/-- Bounds: `np.interp(M1min, M1, cumfM1)` always lands in `[0, 1]`. -/
theorem cumf_bounds (m : ℝ) : 0 ≤ np_interp m M1list cumfM1list ∧
    np_interp m M1list cumfM1list ≤ 1 := by
  have hlen : cumfM1list.length = M1list.length := by
    rw [cumfM1list_length, M1list_length]
  have hn : M1list.length ≠ 0 := by rw [M1list_length]; norm_num
  constructor
  · have h := np_interp_ge_head m M1list cumfM1list hn hlen cumfM1list_sorted
    rwa [cumfM1list_head] at h
  · have h := np_interp_le_last m M1list cumfM1list hn hlen cumfM1list_sorted
    rwa [hlen, M1list_length,
      show (150000 - 1 : ℕ) = 149999 from rfl, cumfM1list_last] at h

/-- The primary mass selected by inverse interpolation is at least `0.08`
solar masses whenever the restriction value `cumf` lies in `[0, 1]` and the
uniform draw is non-negative. -/
theorem myM1_ge (cumf u : ℝ) (hc0 : 0 ≤ cumf) (hc1 : cumf ≤ 1) (hu : 0 ≤ u) :
    0.08 ≤ np_interp (cumf + (1 - cumf) * u) cumfM1list M1list := by
  have hlen : M1list.length = cumfM1list.length := by
    rw [cumfM1list_length, M1list_length]
  have hq : 0 ≤ cumf + (1 - cumf) * u := by
    have : 0 ≤ (1 - cumf) * u := mul_nonneg (by linarith) hu
    linarith
  have h := np_interp_ge_at (cumf + (1 - cumf) * u) cumfM1list M1list
    cumfM1list_sorted M1list_sorted hlen 0 (by rw [cumfM1list_length]; norm_num)
    (by rw [cumfM1list_head]; exact hq)
  rwa [M1list_getD (by norm_num), M1f_zero] at h

/-- Clamping: `np.interp(M1min, M1, cumfM1)` clamps every requested minimum mass at or
below `0.08` to the CDF value `0` (the value at the grid floor `0.08`): the
source performs no domain validation. -/
theorem cumf_clamp (m : ℝ) (hm : m ≤ 0.08) :
    np_interp m M1list cumfM1list = 0 := by
  have hn : ¬M1list.length = 0 := by rw [M1list_length]; norm_num
  rcases lt_or_eq_of_le hm with hlt | heq
  · rw [np_interp, if_neg hn, if_pos (by rw [M1list_getD (by norm_num), M1f_zero]; exact hlt)]
    exact cumfM1list_head
  · subst heq
    rw [np_interp_eval _ _ _ M1list_sorted 0 (by rw [M1list_length]; norm_num)
      (by rw [M1list_getD (by norm_num), M1f_zero])
      (by rw [M1list_getD (by norm_num)]; exact M1f_gt_of_pos (le_refl 1))]
    rw [M1list_getD (by norm_num), M1f_zero, cumfM1list_head]
    ring

/-- C9 (amended): `initial_sample` performs no domain validation of `M1min`:
a requested minimum below the `0.08` floor is silently clamped by
`np.interp` (line 598) to the CDF value at `0.08`, and the sampler proceeds,
behaving exactly as if `M1min = 0.08`; no domain error is raised. -/
theorem initial_sample_clamps_low_M1min (m : ℝ) (hm : m ≤ 0.08) (g : Grids)
    (ts : List TrialRand) : initial_sample m g ts = initial_sample 0.08 g ts := by
  rw [initial_sample, initial_sample, cumf_clamp m hm, cumf_clamp 0.08 (le_refl _)]

/-- Witness for `initial_sample_clamps_low_M1min` at `M1min = 0.07`. -/
theorem initial_sample_clamps_low_M1min_witness :
    (0.07 : ℝ) ≤ 0.08 ∧
    initial_sample 0.07 zeroGrids [⟨0, 0, 0, 0⟩] =
      initial_sample 0.08 zeroGrids [⟨0, 0, 0, 0⟩] :=
  ⟨by norm_num, initial_sample_clamps_low_M1min 0.07 (by norm_num) zeroGrids _⟩

/-- C9 counterexample: calling the sampler with `M1min = 0.05`, below the
`0.08` floor, does not fail with a domain error: it proceeds and returns
exactly the output of the `M1min = 0.08` call (the embedding is a total
function because the source has no validation or raise on this path). -/
theorem initial_sample_low_M1min_no_error :
    initial_sample 0.05 zeroGrids [⟨0, 0, 0, 0⟩] =
      initial_sample 0.08 zeroGrids [⟨0, 0, 0, 0⟩] := by
  rw [initial_sample, initial_sample, cumf_clamp 0.05 (by norm_num),
    cumf_clamp 0.08 (le_refl _)]

theorem foldl_max_replicate_zero (n : ℕ) :
    (List.replicate n (0 : ℝ)).foldl max 0 = 0 := by
  induction n with
  | zero => rfl
  | succ n ih => rw [List.replicate_succ, List.foldl_cons, max_self]; exact ih

theorem npMax_replicate_zero (n : ℕ) : npMax (List.replicate n (0 : ℝ)) = 0 := by
  rcases n with _ | n
  · rfl
  · rw [npMax, List.replicate_succ, List.headD_cons, List.foldl_cons, max_self]
    exact foldl_max_replicate_zero n

set_option maxRecDepth 8000 in
/-- Over the all-zero grids, the binary fraction of every trial is `0`, so a
trial whose `myrand` draw is non-negative is always a single star. -/
theorem trialEval_zeroGrids_single (c : ℝ) (t : TrialRand) (ht : 0 ≤ t.myrand) :
    (trialEval zeroGrids c t).2 = none := by
  rw [trialEval]
  simp only [zeroGrids, zero_mul, ite_self, List.ofFn_const, npMax_replicate_zero,
    not_lt.mpr ht, if_false]

theorem initial_sample_loop_zeroGrids_primaries (c : ℝ) (n : ℕ) :
    (initial_sample_loop zeroGrids c
      (List.replicate n ⟨0, 0, 0, 0⟩)).primaries = [] := by
  induction n with
  | zero => rfl
  | succ n ih =>
    rw [List.replicate_succ]
    have h2 := trialEval_zeroGrids_single c ⟨0, 0, 0, 0⟩ (le_refl 0)
    rcases he : trialEval zeroGrids c ⟨0, 0, 0, 0⟩ with ⟨m1, o⟩
    rw [he] at h2
    simp only at h2
    subst h2
    simp only [initial_sample_loop, he]
    exact ih

/-- C2 counterexample: with `M1min = 0.08` and `N = 1000` trials, each with
all four uniform draws `0` (over the all-zero period table every trial has
binary fraction `0` and is a single star), the returned primary-mass array
is empty: its length is `0`, not `N = 1000`.  In the source,
`primary_mass_list.append(myM1)` (line 658) sits inside the binary branch
only, so singles are never recorded in the primary-mass output. -/
theorem initial_sample_length_counterexample :
    (initial_sample 0.08 zeroGrids
      (List.replicate 1000 ⟨0, 0, 0, 0⟩)).primaries.length = 0 ∧
    (0 : ℕ) ≠ 1000 := by
  constructor
  · rw [initial_sample, initial_sample_loop_zeroGrids_primaries]
    rfl
  · norm_num

set_option maxRecDepth 8000 in
/-- The selected primary mass is the same in both branches of a trial. -/
theorem trialEval_fst (g : Grids) (c : ℝ) (t : TrialRand) :
    (trialEval g c t).1 = np_interp (c + (1 - c) * t.uM1) cumfM1list M1list := by
  rw [trialEval]

/-- Loop-level specification: the primary-mass list records exactly the
binary trials, each recorded mass is at least `0.08`, and the total mass is
the sum of all trials' primary masses plus the sum of the recorded
secondary masses. -/
theorem initial_sample_loop_spec (g : Grids) (c : ℝ) (hc0 : 0 ≤ c) (hc1 : c ≤ 1) :
    ∀ ts : List TrialRand, (∀ t ∈ ts, 0 ≤ t.uM1) →
      (initial_sample_loop g c ts).primaries.length =
        ts.countP (fun t => ((trialEval g c t).2).isSome) ∧
      (∀ x ∈ (initial_sample_loop g c ts).primaries, 0.08 ≤ x) ∧
      (initial_sample_loop g c ts).total =
        (ts.map fun t => (trialEval g c t).1).sum +
          (initial_sample_loop g c ts).secondaries.sum := by
  intro ts
  induction ts with
  | nil =>
    intro _
    refine ⟨rfl, by simp [initial_sample_loop], by simp [initial_sample_loop]⟩
  | cons t ts ih =>
    intro hu
    have hut : 0 ≤ t.uM1 := hu t (List.mem_cons_self _ _)
    have ihs := ih fun s hs => hu s (List.mem_cons_of_mem _ hs)
    have hm1 : 0.08 ≤ (trialEval g c t).1 := by
      rw [trialEval_fst]
      exact myM1_ge c t.uM1 hc0 hc1 hut
    rcases he : trialEval g c t with ⟨m1, o⟩
    rw [he] at hm1
    simp only at hm1
    rcases o with _ | ⟨q, lp, e⟩
    · simp only [initial_sample_loop, he, List.countP_cons, List.map_cons, List.sum_cons]
      refine ⟨?_, ihs.2.1, ?_⟩
      · rw [ihs.1]
        simp
      · rw [ihs.2.2]
        ring
    · simp only [initial_sample_loop, he, List.countP_cons, List.map_cons, List.sum_cons]
      refine ⟨?_, ?_, ?_⟩
      · rw [List.length_cons, ihs.1]
        simp
      · intro x hx
        rcases List.mem_cons.mp hx with rfl | hx
        · exact hm1
        · exact ihs.2.1 x hx
      · rw [ihs.2.2]
        ring

/-- C2 (amended): for every grid and draw list with non-negative
primary-mass draws, the primary-mass array returned by `initial_sample` has
length equal to the number of binary trials (singles are not appended),
every recorded value is at least `0.08`, and the total-sampled-mass
aggregate (started at `0`; the source forgets the initialisation) equals the
sum of all trials' primary masses plus the sum of the recorded secondary
masses. -/
theorem initial_sample_spec (M1min : ℝ) (g : Grids) (ts : List TrialRand)
    (hu : ∀ t ∈ ts, 0 ≤ t.uM1) :
    (initial_sample M1min g ts).primaries.length =
      ts.countP (fun t =>
        ((trialEval g (np_interp M1min M1list cumfM1list) t).2).isSome) ∧
    (∀ x ∈ (initial_sample M1min g ts).primaries, 0.08 ≤ x) ∧
    (initial_sample M1min g ts).total =
      (ts.map fun t => (trialEval g (np_interp M1min M1list cumfM1list) t).1).sum +
        (initial_sample M1min g ts).secondaries.sum := by
  have hb := cumf_bounds M1min
  exact initial_sample_loop_spec g _ hb.1 hb.2 ts hu

/-- Witness for `initial_sample_spec` at `M1min = 0.08`, the all-zero grids
and a single all-zero trial. -/
theorem initial_sample_spec_witness :
    (∀ t ∈ [(⟨0, 0, 0, 0⟩ : TrialRand)], 0 ≤ t.uM1) ∧
    ((initial_sample 0.08 zeroGrids [⟨0, 0, 0, 0⟩]).primaries.length =
      [(⟨0, 0, 0, 0⟩ : TrialRand)].countP (fun t =>
        ((trialEval zeroGrids
          (np_interp 0.08 M1list cumfM1list) t).2).isSome) ∧
    (∀ x ∈ (initial_sample 0.08 zeroGrids [⟨0, 0, 0, 0⟩]).primaries, 0.08 ≤ x) ∧
    (initial_sample 0.08 zeroGrids [⟨0, 0, 0, 0⟩]).total =
      ([(⟨0, 0, 0, 0⟩ : TrialRand)].map fun t =>
        (trialEval zeroGrids (np_interp 0.08 M1list cumfM1list) t).1).sum +
        (initial_sample 0.08 zeroGrids [⟨0, 0, 0, 0⟩]).secondaries.sum) := by
  have hu : ∀ t ∈ [(⟨0, 0, 0, 0⟩ : TrialRand)], 0 ≤ t.uM1 := by
    intro t ht
    rw [List.mem_singleton] at ht
    subst ht
    exact le_refl 0
  exact ⟨hu, initial_sample_spec 0.08 zeroGrids [⟨0, 0, 0, 0⟩] hu⟩

/-- C8: in the embedded Monte-Carlo loop (with the source's unbound `logP`
in the period append read as the selected `mylogP`, the evident intent), the
appended orbital periods are exactly `10 ** mylogP * sec_in_day` and the
appended secondary masses are exactly `myq * myM1`, for the per-trial
selected values, binary trials only, in trial order. -/
theorem initial_sample_outputs (g : Grids) (c : ℝ) (ts : List TrialRand) :
    (initial_sample_loop g c ts).porbs =
      ts.filterMap (fun t => ((trialEval g c t).2).map
        (fun b => (10 : ℝ) ^ b.2.1 * sec_in_day)) ∧
    (initial_sample_loop g c ts).secondaries =
      ts.filterMap (fun t => ((trialEval g c t).2).map
        (fun b => b.1 * (trialEval g c t).1)) ∧
    (initial_sample_loop g c ts).eccs =
      ts.filterMap (fun t => ((trialEval g c t).2).map (fun b => b.2.2)) := by
  induction ts with
  | nil => exact ⟨rfl, rfl, rfl⟩
  | cons t ts ih =>
    rcases he : trialEval g c t with ⟨m1, o⟩
    rcases o with _ | ⟨q, lp, e⟩
    · simp only [initial_sample_loop, he, List.filterMap_cons, Option.map_none']
      exact ih
    · simp only [initial_sample_loop, he, List.filterMap_cons, Option.map_some']
      exact ⟨by rw [ih.1], by rw [ih.2.1], by rw [ih.2.2]⟩

theorem getD_range_map {α : Type*} (f : ℕ → α) {n i : ℕ} (h : i < n) (d : α) :
    ((List.range n).map f).getD i d = f i := by
  rw [List.getD_eq_getElem _ _ (by simpa using h)]
  simp

/-- Properties of the zero-masked renormalised slice built by the mass-ratio
truncation: length, monotonicity, vanishing at the largest grid index `k`
at or below `q_min`, and the closed form of the entries above `k`. -/
theorem truncCore_spec {α : Type*} [LinearOrderedField α] (qmin c : α) (dist : List α)
    (hdl : dist.length = 91) (hds : SortedLe dist) (k : ℕ) (hk1 : k + 1 < 91)
    (hqk : (qvL (α := α)).getD k 0 ≤ qmin)
    (hqk1 : qmin < (qvL (α := α)).getD (k + 1) 0)
    (hck1 : c ≤ dist.getD (k + 1) 0) (hcM : c < dist.getD 90 0) :
    ((List.range 91).map fun i =>
      if (qvL (α := α)).getD i 0 ≤ qmin then 0
      else ((dist.map (· - c)).map (· / npMax (dist.map (· - c)))).getD i 0).length
        = 91 ∧
    SortedLe ((List.range 91).map fun i =>
      if (qvL (α := α)).getD i 0 ≤ qmin then 0
      else ((dist.map (· - c)).map (· / npMax (dist.map (· - c)))).getD i 0) ∧
    ((List.range 91).map fun i =>
      if (qvL (α := α)).getD i 0 ≤ qmin then 0
      else ((dist.map (· - c)).map (· / npMax (dist.map (· - c)))).getD i 0).getD k 0
        = 0 ∧
    ∀ i, k < i → i < 91 →
      ((List.range 91).map fun i =>
        if (qvL (α := α)).getD i 0 ≤ qmin then 0
        else ((dist.map (· - c)).map (· / npMax (dist.map (· - c)))).getD i 0).getD i 0
        = (dist.getD i 0 - c) / (dist.getD 90 0 - c) := by
  set L := (List.range 91).map fun i =>
    if (qvL (α := α)).getD i 0 ≤ qmin then 0
    else ((dist.map (· - c)).map (· / npMax (dist.map (· - c)))).getD i 0 with hL
  have hmask : ∀ i, i < 91 → ((qvL (α := α)).getD i 0 ≤ qmin ↔ i ≤ k) := by
    intro i hi
    constructor
    · intro hle
      by_contra hgt
      push_neg at hgt
      have h2 : (qvL (α := α)).getD (k + 1) 0 ≤ (qvL (α := α)).getD i 0 :=
        qvL_sorted (k + 1) i hgt (by rw [qvL_length]; exact hi)
      linarith
    · intro hle
      exact le_trans (qvL_sorted i k hle (by rw [qvL_length]; omega)) hqk
  have hd1getD : ∀ i, i < 91 → (dist.map (· - c)).getD i 0 = dist.getD i 0 - c := by
    intro i hi
    rw [getD_map _ _ _ (by omega) 0]
  have hd1len : (dist.map (· - c)).length = 91 := by rw [List.length_map, hdl]
  have hd1sorted : SortedLe (dist.map (· - c)) := by
    intro i j hij hj
    rw [hd1len] at hj
    rw [hd1getD i (by omega), hd1getD j hj]
    have := hds i j hij (by omega)
    linarith
  have hd1ne : dist.map (· - c) ≠ [] := by
    intro hx
    rw [hx] at hd1len
    simp at hd1len
  have hM : npMax (dist.map (· - c)) = dist.getD 90 0 - c := by
    rw [sortedLe_npMax hd1sorted hd1ne, hd1len]
    exact hd1getD 90 (by norm_num)
  have hMpos : 0 < dist.getD 90 0 - c := by linarith
  have hLgetD : ∀ i, i < 91 → L.getD i 0 =
      if (qvL (α := α)).getD i 0 ≤ qmin then 0
      else (dist.getD i 0 - c) / (dist.getD 90 0 - c) := by
    intro i hi
    rw [hL, getD_range_map _ hi 0]
    congr 1
    rw [getD_map _ _ _ (by rw [hd1len]; exact hi) 0, hd1getD i hi, hM]
  have hzero : L.getD k 0 = 0 := by
    rw [hLgetD k (by omega), if_pos ((hmask k (by omega)).mpr (le_refl k))]
  have hform : ∀ i, k < i → i < 91 → L.getD i 0 =
      (dist.getD i 0 - c) / (dist.getD 90 0 - c) := by
    intro i hki hi
    rw [hLgetD i hi, if_neg (by rw [hmask i hi]; omega)]
  have hLlen : L.length = 91 := by
    rw [hL, List.length_map, List.length_range]
  refine ⟨hLlen, ?_, hzero, hform⟩
  intro i j hij hj
  rw [hLlen] at hj
  rcases le_or_lt j k with hjk | hjk
  · rw [hLgetD i (by omega), hLgetD j hj,
      if_pos ((hmask i (by omega)).mpr (by omega)),
      if_pos ((hmask j hj).mpr hjk)]
  · rcases le_or_lt i k with hik | hik
    · rw [hLgetD i (by omega), if_pos ((hmask i (by omega)).mpr hik),
        hform j hjk hj]
      have hdj : dist.getD (k + 1) 0 ≤ dist.getD j 0 := hds (k + 1) j hjk (by omega)
      exact div_nonneg (by linarith) (le_of_lt hMpos)
    · rw [hform i hik (by omega), hform j hjk hj]
      have := hds i j hij (by omega)
      exact (div_le_div_iff_of_pos_right hMpos).mpr (by linarith)

/-- Specification of `qTruncDist` (the destructive update block of lines
643-652): it is a 91-entry non-decreasing list, zero at the largest grid
index at or below `q_min`, with the renormalised values above it. -/
theorem qTruncDist_spec {α : Type*} [LinearOrderedField α] (qmin : α) (dist : List α)
    (hdl : dist.length = 91) (hds : SortedLe dist) (k : ℕ) (hk1 : k + 1 < 91)
    (hqk : (qvL (α := α)).getD k 0 ≤ qmin)
    (hqk1 : qmin < (qvL (α := α)).getD (k + 1) 0)
    (hcM : np_interp qmin qvL dist < dist.getD 90 0) :
    (qTruncDist qmin dist).length = 91 ∧ SortedLe (qTruncDist qmin dist) ∧
    (qTruncDist qmin dist).getD k 0 = 0 ∧
    ∀ i, k < i → i < 91 → (qTruncDist qmin dist).getD i 0 =
      (dist.getD i 0 - np_interp qmin qvL dist) /
        (dist.getD 90 0 - np_interp qmin qvL dist) := by
  have hck1 : np_interp qmin qvL dist ≤ dist.getD (k + 1) 0 :=
    np_interp_le_at qmin qvL dist qvL_sorted hds (by rw [hdl, qvL_length]) (k + 1)
      (by rw [qvL_length]; exact hk1) hqk1
  have h := truncCore_spec qmin (np_interp qmin qvL dist) dist hdl hds k hk1 hqk hqk1
    hck1 hcM
  exact h

/-- C4 (amended): in the truncated mass-ratio draw for `myM1 < 0.8` solar
masses, the returned mass ratio is at least the largest `q`-grid point at or
below `q_min = 0.08/myM1` (grid index `k`), for every non-negative draw —
but only that grid point, not `q_min` itself, bounds it from below. -/
theorem qSelect_lower_bound {α : Type*} [LinearOrderedField α] (myM1 : α)
    (dist : List α) (u : α) (hm8 : myM1 < 0.8) (hdl : dist.length = 91)
    (hds : SortedLe dist) (hu : 0 ≤ u) (k : ℕ) (hk1 : k + 1 < 91)
    (hqk : (qvL (α := α)).getD k 0 ≤ 0.08 / myM1)
    (hqk1 : 0.08 / myM1 < (qvL (α := α)).getD (k + 1) 0)
    (hcM : np_interp (0.08 / myM1) qvL dist < dist.getD 90 0) :
    (qvL (α := α)).getD k 0 ≤ qSelect myM1 dist u := by
  rw [qSelect, if_pos hm8]
  rcases qTruncDist_spec (0.08 / myM1) dist hdl hds k hk1 hqk hqk1 hcM with
    ⟨hlen, hsort, hzero, _⟩
  have h := np_interp_ge_at u (qTruncDist (0.08 / myM1) dist) qvL hsort qvL_sorted
    (by rw [qvL_length, hlen]) k (by rw [hlen]; omega)
    (by rw [hzero]; exact hu)
  exact h

/-- Witness for `qSelect_lower_bound` over `ℚ` at `myM1 = 0.45`
(`q_min = 8/45`, bracketed by grid points `0.17` and `0.18`, index `k = 7`)
on the linear-ramp CDF slice `i/90` with draw `1/1000`. -/
theorem qSelect_lower_bound_witness :
    ((9 / 20 : ℚ) < 0.8 ∧
      (List.ofFn fun i : Fin 91 => (i.1 : ℚ) / 90).length = 91 ∧
      SortedLe (List.ofFn fun i : Fin 91 => (i.1 : ℚ) / 90) ∧
      (qvL (α := ℚ)).getD 7 0 ≤ 0.08 / (9 / 20) ∧
      0.08 / (9 / 20) < (qvL (α := ℚ)).getD 8 0 ∧
      np_interp (0.08 / (9 / 20)) qvL (List.ofFn fun i : Fin 91 => (i.1 : ℚ) / 90) <
        (List.ofFn fun i : Fin 91 => (i.1 : ℚ) / 90).getD 90 0) ∧
    (qvL (α := ℚ)).getD 7 0 ≤
      qSelect (9 / 20 : ℚ) (List.ofFn fun i : Fin 91 => (i.1 : ℚ) / 90) (1 / 1000) := by
  have hsor : SortedLe (List.ofFn fun i : Fin 91 => ((i.1 : ℚ) / 90)) := by
    refine sortedLe_ofFn (fun n => (n : ℚ) / 90) ?_
    intro i j hij hj
    have : (i : ℚ) ≤ (j : ℚ) := by exact_mod_cast hij
    linarith
  have hlen : (List.ofFn fun i : Fin 91 => ((i.1 : ℚ) / 90)).length = 91 :=
    List.length_ofFn _
  have hg90 : (List.ofFn fun i : Fin 91 => ((i.1 : ℚ) / 90)).getD 90 0 = 1 := by
    rw [getD_ofFn _ _ _ (by norm_num)]
    norm_num
  have hqk : (qvL (α := ℚ)).getD 7 0 ≤ 0.08 / (9 / 20) := by
    rw [qvL_getD (by norm_num)]
    norm_num
  have hqk1 : (0.08 : ℚ) / (9 / 20) < (qvL (α := ℚ)).getD 8 0 := by
    rw [qvL_getD (by norm_num)]
    norm_num
  have hcM : np_interp ((0.08 : ℚ) / (9 / 20)) qvL
      (List.ofFn fun i : Fin 91 => ((i.1 : ℚ) / 90)) <
      (List.ofFn fun i : Fin 91 => ((i.1 : ℚ) / 90)).getD 90 0 := by
    have hle := np_interp_le_at ((0.08 : ℚ) / (9 / 20)) qvL
      (List.ofFn fun i : Fin 91 => ((i.1 : ℚ) / 90)) qvL_sorted hsor
      (by rw [qvL_length, hlen]) 8 (by rw [qvL_length]; norm_num) hqk1
    have h8 : (List.ofFn fun i : Fin 91 => ((i.1 : ℚ) / 90)).getD 8 0 = 8 / 90 := by
      rw [getD_ofFn _ _ _ (by norm_num)]
      norm_num
    rw [h8] at hle
    rw [hg90]
    linarith
  exact ⟨⟨by norm_num, hlen, hsor, hqk, hqk1, hcM⟩,
    qSelect_lower_bound (9 / 20) _ (1 / 1000) (by norm_num) hlen hsor (by norm_num)
      7 (by norm_num) hqk hqk1 hcM⟩

/-- C4 counterexample (over exact rationals): take `myM1 = 0.45 < 0.8`, so
`q_min = 0.08/0.45 = 8/45 ≈ 0.1778`, strictly between the grid points
`qv[7] = 0.17` and `qv[8] = 0.18`, and take the valid CDF slice `i/90`
(non-decreasing from `0` to `1`).  For the uniform draw `u = 1/1000` the
truncated inverse interpolation returns `0.1737 < q_min`: the truncation
zeroes the distribution only at grid points at or below `q_min`, and small
draws interpolate inside `[qv[7], qv[8])`, crossing below `q_min`. -/
theorem qSelect_below_qmin_counterexample :
    (9 / 20 : ℚ) < 0.8 ∧
    SortedLe (List.ofFn fun i : Fin 91 => (i.1 : ℚ) / 90) ∧
    (List.ofFn fun i : Fin 91 => (i.1 : ℚ) / 90).getD 0 0 = 0 ∧
    (List.ofFn fun i : Fin 91 => (i.1 : ℚ) / 90).getD 90 0 = 1 ∧
    qSelect (9 / 20 : ℚ) (List.ofFn fun i : Fin 91 => (i.1 : ℚ) / 90) (1 / 1000) <
      0.08 / (9 / 20) := by
  have hsor : SortedLe (List.ofFn fun i : Fin 91 => ((i.1 : ℚ) / 90)) := by
    refine sortedLe_ofFn (fun n => (n : ℚ) / 90) ?_
    intro i j hij hj
    have : (i : ℚ) ≤ (j : ℚ) := by exact_mod_cast hij
    linarith
  have hlen : (List.ofFn fun i : Fin 91 => ((i.1 : ℚ) / 90)).length = 91 :=
    List.length_ofFn _
  have hg0 : (List.ofFn fun i : Fin 91 => ((i.1 : ℚ) / 90)).getD 0 0 = 0 := by
    rw [getD_ofFn _ _ _ (by norm_num)]
    norm_num
  have hg7 : (List.ofFn fun i : Fin 91 => ((i.1 : ℚ) / 90)).getD 7 0 = 7 / 90 := by
    rw [getD_ofFn _ _ _ (by norm_num)]
    norm_num
  have hg8 : (List.ofFn fun i : Fin 91 => ((i.1 : ℚ) / 90)).getD (7 + 1) 0 = 8 / 90 := by
    rw [getD_ofFn _ _ _ (by norm_num)]
    norm_num
  have hg90 : (List.ofFn fun i : Fin 91 => ((i.1 : ℚ) / 90)).getD 90 0 = 1 := by
    rw [getD_ofFn _ _ _ (by norm_num)]
    norm_num
  have hq7 : (qvL (α := ℚ)).getD 7 0 = 17 / 100 := by
    rw [qvL_getD (by norm_num)]
    norm_num
  have hq8 : (qvL (α := ℚ)).getD (7 + 1) 0 = 18 / 100 := by
    rw [qvL_getD (by norm_num)]
    norm_num
  have hqk : (qvL (α := ℚ)).getD 7 0 ≤ 0.08 / (9 / 20) := by
    rw [hq7]
    norm_num
  have hqk1 : (0.08 : ℚ) / (9 / 20) < (qvL (α := ℚ)).getD (7 + 1) 0 := by
    rw [hq8]
    norm_num
  have hc : np_interp ((0.08 : ℚ) / (9 / 20)) qvL
      (List.ofFn fun i : Fin 91 => ((i.1 : ℚ) / 90)) = 7 / 81 := by
    rw [np_interp_eval _ _ _ qvL_sorted 7 (by rw [qvL_length]; norm_num) hqk hqk1]
    rw [hq7, hq8, hg7, hg8]
    norm_num
  have hcM : np_interp ((0.08 : ℚ) / (9 / 20)) qvL
      (List.ofFn fun i : Fin 91 => ((i.1 : ℚ) / 90)) <
      (List.ofFn fun i : Fin 91 => ((i.1 : ℚ) / 90)).getD 90 0 := by
    rw [hc, hg90]
    norm_num
  rcases qTruncDist_spec ((0.08 : ℚ) / (9 / 20))
      (List.ofFn fun i : Fin 91 => ((i.1 : ℚ) / 90)) hlen hsor 7 (by norm_num)
      hqk hqk1 hcM with ⟨hLlen, hLsort, hLzero, hLform⟩
  have hL8 : (qTruncDist ((0.08 : ℚ) / (9 / 20))
      (List.ofFn fun i : Fin 91 => ((i.1 : ℚ) / 90))).getD (7 + 1) 0 = 1 / 370 := by
    rw [hLform (7 + 1) (by norm_num) (by norm_num), hg8, hg90, hc]
    norm_num
  have hfinal : qSelect (9 / 20 : ℚ)
      (List.ofFn fun i : Fin 91 => ((i.1 : ℚ) / 90)) (1 / 1000) = 1737 / 10000 := by
    rw [qSelect, if_pos (by norm_num : (9 / 20 : ℚ) < 0.8)]
    rw [np_interp_eval _ _ _ hLsort 7 (by rw [hLlen]; norm_num)
      (by rw [hLzero]; norm_num) (by rw [hL8]; norm_num)]
    rw [hLzero, hL8, hq7, hq8]
    norm_num
  refine ⟨by norm_num, hsor, hg0, hg90, ?_⟩
  rw [hfinal]
  norm_num

end Cosmic
